import Mathlib

/-!
Verification of the `nsaph` schema compiler (`nsaph/data_model/domain.py`).

The development shallowly embeds the `Domain` class: the parsed domain
specification becomes an inductive tree of table definitions, the DDL
generation methods become total Lean functions (fallible code returns
`Except String`), and the claims of the specification are settled as
theorems about those functions.

Python strings are modelled by `String`; every string primitive used by the
source (`lower`, `strip`, `replace`, `endswith`, slicing, `in`, `index`,
`join`) is re-implemented structurally over `List Char` so that all
definitions evaluate by kernel reduction.
-/

namespace Nsaph

/-! ### Python string primitives -/

/-- Python `str.lower` (per-character lowering). -/
def pyLower (s : String) : String := String.mk (s.data.map Char.toLower)

/-- Whitespace test used by Python `str.strip`. -/
def isSpaceChar (c : Char) : Bool := c.isWhitespace

/-- Drop leading whitespace characters. -/
def dropSpaces : List Char → List Char
  | [] => []
  | c :: t => if isSpaceChar c then dropSpaces t else c :: t

/-- Python `str.strip()`: remove leading and trailing whitespace. -/
def pyStrip (s : String) : String :=
  String.mk ((dropSpaces ((dropSpaces s.data).reverse)).reverse)

/-- First index (if any) at which `p` occurs as a sublist of `l`,
mirroring Python `str.index`/`in`. -/
def subIdx : List Char → List Char → Option Nat
  | [], p => if List.isPrefixOf p [] then some 0 else none
  | c :: t, p =>
    if List.isPrefixOf p (c :: t) then some 0 else (subIdx t p).map (· + 1)

/-- Python `str.index`, as an `Option`. -/
def pyIndexOf (s pat : String) : Option Nat := subIdx s.data pat.data

/-- Python substring membership `pat in s`. -/
def strContains (s pat : String) : Bool := (pyIndexOf s pat).isSome

/-- Python slice `s[a:b]` for nonnegative bounds. -/
def pySlice (s : String) (a b : Nat) : String :=
  String.mk ((s.data.drop a).take (b - a))

/-- Fuel-driven worker for `pyReplace`; fuel at least the length of the
subject list makes it total while keeping structural recursion. -/
def replaceFuel (old new : List Char) : Nat → List Char → List Char
  | 0, l => l
  | _ + 1, [] => []
  | fuel + 1, c :: rest =>
    if old ≠ [] ∧ List.isPrefixOf old (c :: rest) then
      new ++ replaceFuel old new fuel (List.drop (old.length - 1) rest)
    else c :: replaceFuel old new fuel rest

/-- Python `str.replace` (all non-overlapping occurrences, left to right;
the degenerate empty pattern is returned unchanged). -/
def pyReplace (s old new : String) : String :=
  String.mk (replaceFuel old.data new.data (s.data.length + 1) s.data)

/-- Python `str.endswith`. -/
def pyEndsWith (s suffix : String) : Bool := List.isSuffixOf suffix.data s.data

/-- Python `str.startswith`. -/
def pyStartsWith (s pre : String) : Bool := List.isPrefixOf pre.data s.data

/-- Python `sep.join(parts)`. -/
def joinSep (sep : String) : List String → String
  | [] => ""
  | [x] => x
  | x :: y :: t => x ++ sep ++ joinSep sep (y :: t)

/-- Python `str(x)` on an optional string: `None` prints as `"None"`. -/
def pyStr : Option String → String
  | none => "None"
  | some s => s

/-- The single-quote character as a string. -/
def sq : String := String.mk [Char.ofNat 39]

/-- The suffix after the last `.` (the whole list when no dot occurs). -/
def afterLastDot : List Char → List Char
  | [] => []
  | c :: t =>
    if c = '.' then afterLastDot t
    else if t.contains '.' then afterLastDot t
    else c :: t

/-- Last dot-separated component: Python `s.split(".")[-1]`. -/
def lastDotComponent (s : String) : String :=
  String.mk (afterLastDot s.data)

/-! ### Association-list (Python `dict`) helpers.
Python dictionaries preserve insertion order; they are modelled by
association lists whose keys are unique in well-formed specs. -/

/-- First-occurrence lookup, mirroring `k in d` / `d[k]`. -/
def alookup {α : Type} : List (String × α) → String → Option α
  | [], _ => none
  | (k, v) :: t, key => if k = key then some v else alookup t key

/-- Lookup returning the last binding, mirroring a Python dict
comprehension in which later duplicate keys overwrite earlier ones. -/
def alookupLast {α : Type} (l : List (String × α)) (key : String) : Option α :=
  alookup l.reverse key

/-- Python `d[k] = v`: replace the value at an existing key (keeping its
position) or append a new binding. -/
def dictSet {α : Type} : List (String × α) → String → α → List (String × α)
  | [], k, v => [(k, v)]
  | (k0, v0) :: t, k, v =>
    if k0 = k then (k0, v) :: t else (k0, v0) :: dictSet t k v

/-- Python `old.update(new)` over ordered dicts. -/
def dictUpdate {α : Type} (old new : List (String × α)) : List (String × α) :=
  new.foldl (fun acc kv => dictSet acc kv.1 kv.2) old

/-- Fail-fast left-to-right map over a fallible function (the semantics
of a Python list comprehension whose body may raise). -/
def mapExcept {ε α β : Type} (f : α → Except ε β) : List α → Except ε (List β)
  | [] => Except.ok []
  | x :: t => do
    let y ← f x
    let ys ← mapExcept f t
    Except.ok (y :: ys)

/-- Fail-fast left fold over a fallible function (the semantics of a
Python `for` loop accumulating into a variable). -/
def foldlExcept {ε α β : Type} (f : β → α → Except ε β) :
    β → List α → Except ε β
  | b, [] => Except.ok b
  | b, x :: t => do
    let b1 ← f b x
    foldlExcept f b1 t

/-! ### The spec model (section 3 of the specification)

The duck-typed mapping shapes of the domain spec become closed inductive
types.  A table definition is a nested tree; absent optional keys are
`none`, and an absent `columns`/`children`/`indices` key is the empty
list. -/

/-- The `index` attribute of a column: a boolean, a bare index name, or an
object with optional `name`, `using` and a `required_before_loading_data`
marker (the source only tests the key's presence). -/
inductive IndexSpec where
  | bool (b : Bool)
  | str (s : String)
  | obj (name : Option String) (using_ : Option String)
        (required_before_loading_data : Bool)
deriving DecidableEq

/-- The object form of a column `source`. -/
structure SourceObj where
  name : Option String := none
  select : Option String := none
  from_ : Option String := none
  where_ : Option String := none
  type_ : Option String := none
  code : Option String := none
deriving DecidableEq

/-- A column `source`: either a bare SQL string or an object. -/
inductive Source where
  | str (s : String)
  | obj (o : SourceObj)
deriving DecidableEq

/-- The object form of a column definition. -/
structure ColDef where
  type_ : Option String := none
  source : Option Source := none
  index : Option IndexSpec := none
  identifier : Option Bool := none
deriving DecidableEq

/-- A column: a bare name, or a name mapped to a definition object. -/
inductive Column where
  | bare (name : String)
  | defined (name : String) (cdef : ColDef)
deriving DecidableEq

/-- The `create` attribute describing a view or table-from-view. -/
structure CreateDef where
  type_ : Option String := none
  from_ : Option String := none
  select : Option String := none
  group_by : Option (List String) := none
deriving DecidableEq

/-- The `target` object of an `invalid.records` policy. -/
structure TargetDef where
  schema : Option String := none
  table : Option String := none
deriving DecidableEq

/-- The `invalid.records` policy of a table. -/
structure InvalidRecords where
  action : String
  target : Option TargetDef := none
deriving DecidableEq

/-- A named index declared under `indices`/`indexes`. -/
structure NamedIndex where
  columns : Option (List String) := none
  using_ : Option String := none
deriving DecidableEq

/-- A table definition (recursive through `children`). -/
inductive TableDef where
  | mk (columns : List Column)
       (primary_key : Option (List String))
       (children : List (String × TableDef))
       (create : Option CreateDef)
       (indices : List (String × NamedIndex))
       (invalid_records : Option InvalidRecords)

/-- The ordered `tables` mapping of a domain. -/
abbrev Tables := List (String × TableDef)

def TableDef.columns : TableDef → List Column
  | .mk c _ _ _ _ _ => c

def TableDef.primary_key : TableDef → Option (List String)
  | .mk _ p _ _ _ _ => p

def TableDef.children : TableDef → List (String × TableDef)
  | .mk _ _ ch _ _ _ => ch

def TableDef.create : TableDef → Option CreateDef
  | .mk _ _ _ cr _ _ => cr

def TableDef.indices : TableDef → List (String × NamedIndex)
  | .mk _ _ _ _ i _ => i

def TableDef.invalid_records : TableDef → Option InvalidRecords
  | .mk _ _ _ _ _ ir => ir

/-- The compiler state fixed at `Domain.__init__`: the resolved schema
name, the domain-level string-valued keys (for `$`-references and the
auxiliary `schema.`-prefixed declarations), the table tree, the resolved
index policy, and the `sloppy`/`concurrent_indices` flags.
`indexMethod` stands for `nsaph.data_model.model.index_method`, the
type-driven name heuristic of the `selected` policy; per the spec it is an
external pluggable name-to-method classifier, so it is a parameter here. -/
structure DomainSpec where
  schema : Option String
  vars : List (String × String)
  tables : Tables
  index_policy : String
  sloppy : Bool
  concurrent_indices : Bool
  indexMethod : String → Option String

/-! ### Helpers from the missing modules -/

/-- Modelled from the spec: `nsaph.data_model.utils.split` destructures a
column into its name and definition object; a bare column name gets the
empty definition (section 3 column shapes; `Domain.list_columns` shows the
same destructuring inline). -/
def split : Column → String × ColDef
  | .bare n => (n, {})
  | .defined n d => (n, d)

/-- Modelled from the spec: `nsaph.data_model.utils.basename` keeps the
last dot-separated component of a qualified table name (the generated
function is named `validate_<table>` for a schema-qualified table). -/
def basename (t : String) : String := lastDotComponent t

/-- Modelled from the spec: `INDEX_NAME_PATTERN` of
`nsaph.data_model.model` — the deterministic default index name pattern
`<table>_<column>_idx`. -/
def index_name_pattern (table column : String) : String :=
  table ++ "_" ++ column ++ "_idx"

/-- Modelled from the spec: `INDEX_DDL_PATTERN` of
`nsaph.data_model.model` —
`CREATE INDEX [CONCURRENTLY] <name> ON <table> USING <method> (<cols>);`. -/
def index_ddl_pattern (option name table column method : String) : String :=
  "CREATE INDEX " ++ option ++ " " ++ name ++ " ON " ++ table ++
    " USING " ++ method ++ " (" ++ column ++ ");"

/-! ### Domain methods (straight-line parts) -/

/-- `Domain.fqn`: schema-qualified table name. -/
def fqn (ctx : DomainSpec) (table : String) : String :=
  match ctx.schema with
  | some s => s ++ "." ++ table
  | none => table

/-- Lookup of a domain-level spec key (`self.spec[self.domain][k]`),
raising `KeyError` when absent. -/
def lookupVar (ctx : DomainSpec) (k : String) : Except String String :=
  match alookup ctx.vars k with
  | some v => Except.ok v
  | none => Except.error ("KeyError: " ++ k)

/-- `Domain.create_table`: the `CREATE TABLE {flag} {name}` prefix, with
the `IF NOT EXISTS` flag exactly when sloppy mode is on. -/
def create_table (ctx : DomainSpec) (name : String) : String :=
  "CREATE TABLE " ++ (if ctx.sloppy then "IF NOT EXISTS" else "") ++ " " ++ name

/-- `Domain.is_array`: a column is array-typed iff its declared type
string ends with `]`. -/
def is_array (c : ColDef) : Bool :=
  match c.type_ with
  | none => false
  | some t => pyEndsWith t "]"

/-- `Domain.is_generated`: the column's `source` is an object whose `type`
lowercases to `generated`. -/
def is_generated (c : ColDef) : Bool :=
  match c.source with
  | some (.obj o) =>
    match o.type_ with
    | some t => pyLower t = "generated"
    | none => false
  | _ => false

/-- `Domain.column_spec`: `"<name> <type>"` (type defaults to `VARCHAR`),
or `"<name> <type> <code>"` for a generated column, failing when a
generated column has no `code`. -/
def column_spec (column : Column) : Except String String :=
  let (name, c) := split column
  let t := match c.type_ with
    | some ty => ty
    | none => "VARCHAR"
  if is_generated c then
    match c.source with
    | some (.obj o) =>
      match o.code with
      | some code => Except.ok (name ++ " " ++ t ++ " " ++ code)
      | none => Except.error "Generated column must specify the compute code"
    | _ => Except.error "Generated column must specify the compute code"
  else Except.ok (name ++ " " ++ t)

/-- `Domain.need_index`: policy `all` indexes every column; an explicit
`index` attribute always indexes; policy `selected` additionally consults
the name heuristic; policy `explicit` indexes nothing else. -/
def need_index (ctx : DomainSpec) (column : Column) : Bool :=
  if ctx.index_policy = "all" then true
  else
    let (n, c) := split column
    if c.index.isSome then true
    else if ctx.index_policy = "selected" then (ctx.indexMethod n).isSome
    else false

/-- `Domain.get_index_ddl`: index DDL for one column plus its onload
flag. -/
def get_index_ddl (ctx : DomainSpec) (table : String) (column : Column) :
    String × Bool :=
  let option := if ctx.concurrent_indices then "CONCURRENTLY" else ""
  let (cname, c) := split column
  let (iname?, method?, onload) :=
    match c.index with
    | some (.str s) => (some s, (none : Option String), false)
    | some (.obj n u r) => (n, u, r)
    | _ => ((none : Option String), (none : Option String), false)
  let method := match method? with
    | some m => m
    | none => if is_array c then "GIN" else "BTREE"
  let iname := match iname? with
    | some n => n
    | none => index_name_pattern (lastDotComponent table) cname
  (index_ddl_pattern option iname table cname method, onload)

/-- The per-column index loop of `Domain.ddl_for_node` (lines 367-377):
each column needing an index yields exactly one `(onload, ddl)` entry. -/
def index_entries (ctx : DomainSpec) (table : String) (columns : List Column) :
    List (Bool × String) :=
  columns.filterMap (fun column =>
    if need_index ctx column then
      let (ddl, onload) := get_index_ddl ctx table column
      some (onload, ddl)
    else none)

/-- `Domain.add_index`: DDL for an explicitly declared named index. -/
def add_index (ctx : DomainSpec) (table : String) (name : String)
    (definition : NamedIndex) : Except String String := do
  let option := if ctx.concurrent_indices then "CONCURRENTLY" else ""
  let method := match definition.using_ with
    | some m => m
    | none => "BTREE"
  let cols ← match definition.columns with
    | some cs => Except.ok cs
    | none => Except.error "KeyError: columns"
  Except.ok (index_ddl_pattern option
    (index_name_pattern (lastDotComponent table) name) table
    (joinSep "," cols) method)

/-! ### `Domain.find` (depth-first search by name) -/

mutual
/-- `Domain.find(table, root)` for a non-`None` root: search the root's
`children` mapping first, then recurse into each child in declaration
order. -/
def findIn (t : TableDef) (name : String) : Option TableDef :=
  match t with
  | .mk _ _ ch _ _ _ =>
    match alookup ch name with
    | some d => some d
    | none => findEach ch name
/-- The `for t in tables` loop of `Domain.find`: first successful
recursive search wins. -/
def findEach (ts : Tables) (name : String) : Option TableDef :=
  match ts with
  | [] => none
  | (_, d) :: rest =>
    match findIn d name with
    | some r => some r
    | none => findEach rest name
end

/-- `Domain.find(table)` from the root `tables` mapping. -/
def findT (ts : Tables) (name : String) : Option TableDef :=
  match alookup ts name with
  | some d => some d
  | none => findEach ts name

/-! ### Spillover target resolution -/

/-- A `$`-prefixed value is resolved against the domain-level spec keys
(`spec[ts[1:]]`); an empty string raises `IndexError` like Python
`ts[0]`. -/
def resolveRef (ctx : DomainSpec) (s : String) : Except String String :=
  match s.data with
  | [] => Except.error "IndexError: string index out of range"
  | c :: rest =>
    if c = Char.ofNat 36 then lookupVar ctx (String.mk rest) else Except.ok s

/-- `Domain.spillover_table`: the schema-qualified audit-table name for a
table whose `invalid.records.action` is `insert`, `None` otherwise. -/
def spillover_table (ctx : DomainSpec) (table : String) (definition : TableDef) :
    Except String (Option String) :=
  match definition.invalid_records with
  | none => Except.ok none
  | some validation =>
    let action := pyLower validation.action
    if action = "insert" then do
      let target ← match validation.target with
        | some t => Except.ok t
        | none => Except.error "KeyError: target"
      let ts ← match target.schema with
        | some ts0 => resolveRef ctx ts0
        | none => lookupVar ctx "schema"
      let tt ← match target.table with
        | some tt0 => resolveRef ctx tt0
        | none => Except.ok table
      Except.ok (some (ts ++ "." ++ tt))
    else Except.ok none

/-! ### Generated-column expression extraction -/

/-- `Domain.extract_generation_code`: the text between `AS` and `STORED`
in the column's generation code (located case-insensitively), stripped,
with every sibling column name qualified by `<qualifier>.` through
sequential replacement. -/
def extract_generation_code (column : ColDef) (other_columns : List Column)
    (qualifier : String) : Except String String := do
  let code ← match column.source with
    | some (.obj o) =>
      match o.code with
      | some code => Except.ok code
      | none => Except.error "KeyError: code"
    | _ => Except.error "KeyError: code"
  let low := pyLower code
  let pos1 ← match pyIndexOf low "as" with
    | some i => Except.ok (i + 2)
    | none => Except.error "ValueError: substring not found"
  let pos2 ← match pyIndexOf low "stored" with
    | some i => Except.ok i
    | none => Except.error "ValueError: substring not found"
  let expression := pyStrip (pySlice code pos1 pos2)
  Except.ok (other_columns.foldl (fun e col =>
    let (n, _) := split col
    pyReplace e n (qualifier ++ "." ++ n)) expression)

/-! ### View synthesis -/

/-- The scan after an opening parenthesis in
`re.search(r'\((.*?)[)|,]', s)`: collect characters until the first of
`)`, `|`, `,`, failing at a newline or at the end of the string. -/
def reGroupScan : List Char → Option (List Char)
  | [] => none
  | c :: t =>
    if c = ')' ∨ c = '|' ∨ c = ',' then some []
    else if c = Char.ofNat 10 then none
    else (reGroupScan t).map (c :: ·)

/-- `re.search(r'\((.*?)[)|,]', s).group(1)`: the earliest-starting match
of an opening parenthesis followed (without an intervening newline) by one
of `)`, `|`, `,`; the group is the text in between. -/
def reFirstParenGroup : List Char → Option (List Char)
  | [] => none
  | c :: t =>
    if c = '(' then
      match reGroupScan t with
      | some g => some g
      | none => reFirstParenGroup t
    else reFirstParenGroup t

/-- `Domain.list_identifiers`: the natural-key column list of a table —
for identifier columns with a source expression, the first parenthesized
argument (lowercased, `distinct` removed, stripped) or the whole source
when that argument is blank. -/
def list_identifiers (td : TableDef) : Except String (List String) :=
  foldlExcept (fun acc column => do
    let (name, definition) := split column
    if definition.identifier ≠ some true then Except.ok acc
    else match definition.source with
      | some (.str s) => do
        let g ← match reFirstParenGroup s.data with
          | some g => Except.ok (String.mk g)
          | none => Except.error "AttributeError: NoneType has no attribute group"
        let source_column := pyStrip (pyReplace (pyLower g) "distinct" "")
        if source_column ≠ "" then Except.ok (acc ++ [source_column])
        else Except.ok (acc ++ [s])
      | some (.obj _) => Except.error "TypeError: expected string or bytes-like object"
      | none => Except.ok (acc ++ [name])) [] td.columns

/-- `Domain.find_mapped_column_name` inner loop: the first column of the
joined table whose string `source` equals the local column name. -/
def findMappedAux (cols : List Column) (column1 : String) : String :=
  match cols with
  | [] => column1
  | c :: rest =>
    let (cname, cdef) := split c
    match cdef.source with
    | some (.str s) => if s = column1 then cname else findMappedAux rest column1
    | some (.obj _) => findMappedAux rest column1
    | none => findMappedAux rest column1

/-- `Domain.find_mapped_column_name`: map a grouped column of the owning
table to its name in the joined table, falling back to identity; fails
when the joined table does not exist. -/
def find_mapped_column_name (tree : Tables) (column1 table2 : String) :
    Except String String := do
  let tdef ← match findT tree table2 with
    | some t => Except.ok t
    | none => Except.error "TypeError: NoneType is not subscriptable"
  Except.ok (findMappedAux tdef.columns column1)

/-- `Domain.view_column_joined`: the correlated subquery for an
object-shaped view column source. -/
def view_column_joined (ctx : DomainSpec) (tree : Tables) (source : SourceObj)
    (table : TableDef) : Except String String := do
  let select ← match source.select with
    | some s => Except.ok s
    | none => Except.error "KeyError: select"
  let joined_table ← match source.from_ with
    | some s => Except.ok s
    | none => Except.error "KeyError: from"
  let t2 := fqn ctx joined_table
  let create ← match table.create with
    | some c => Except.ok c
    | none => Except.error "KeyError: create"
  let t1 ← match create.from_ with
    | some s => Except.ok s
    | none => Except.error "KeyError: from"
  let conditions ← match create.group_by with
    | some gb => mapExcept (fun c1 => do
        let c2 ← find_mapped_column_name tree c1 joined_table
        Except.ok (t1 ++ "." ++ c1 ++ " = " ++ t2 ++ "." ++ c2)) gb
    | none => Except.ok []
  let conditions := conditions ++ (match source.where_ with
    | some w => [w]
    | none => [])
  let sql := "(\nSELECT \n\t" ++ select ++ " \nFROM " ++ t2
  let sql := if conditions ≠ [] then
      sql ++ "\nWHERE " ++ joinSep "\n\tAND " conditions
    else sql
  Except.ok (sql ++ "\n)")

/-- `Domain.view_column_spec`: one SELECT expression of a view column — a
bare source string verbatim, an object source as a correlated subquery,
with the `{identifiers}` placeholder substituted and an `AS <name>`
alias appended; a sourceless column is just its name. -/
def view_column_spec (ctx : DomainSpec) (tree : Tables) (column : Column)
    (table : TableDef) (table_fqn : String) : Except String String := do
  let (name, cdef) := split column
  match cdef.source with
  | none => Except.ok name
  | some src => do
    let sql ← match src with
      | .str s => Except.ok s
      | .obj o => view_column_joined ctx tree o table
    let sql := pyReplace (pyStrip sql) "\n" "\n\t\t"
    let sql ←
      if strContains (pyLower sql) "{identifiers}" then do
        let idf ← list_identifiers table
        let s := "(" ++ joinSep ", " idf ++ ")"
        if strContains sql "{identifiers}" then
          Except.ok (pyReplace sql "{identifiers}" s)
        else Except.error ("KeyError: " ++ table_fqn)
      else Except.ok sql
    Except.ok (sql ++ " AS " ++ name)

/-! ### Validation trigger synthesis -/

/-- The `AUDIT_INSERT` template of `domain.py`. -/
def audit_insert (target columns values reason : String) : String :=
  "INSERT INTO " ++ target ++ " \n                (" ++ columns ++
    ", REASON) \n                VALUES (" ++ values ++ ", " ++ sq ++
    reason ++ sq ++ ");"

/-- The `VALIDATION_PROC` template of `domain.py`, with its slots filled
positionally exactly as `Domain.add_fk_validation` does. -/
def validation_proc (schema source parent_table condition_dup action_dup
    condition_fk action_fk condition_pk action_pk : String) : String :=
  "\nCREATE OR REPLACE FUNCTION " ++ schema ++ ".validate_" ++ source ++
  "() RETURNS TRIGGER AS $" ++ schema ++ "_" ++ source ++ "_validation$\n" ++
  "-- Validate foreign key for " ++ schema ++ "." ++ source ++ "\n" ++
  "    BEGIN\n" ++
  "        IF (" ++ condition_pk ++ ") THEN\n" ++
  "            " ++ action_pk ++ "\n" ++
  "            RETURN NULL;\n" ++
  "        END IF;\n" ++
  "        IF NOT EXISTS (\n" ++
  "            SELECT FROM " ++ parent_table ++ " as t\n" ++
  "            WHERE\n" ++
  "                " ++ condition_fk ++ " \n" ++
  "        ) THEN\n" ++
  "            " ++ action_fk ++ "\n" ++
  "            RETURN NULL;\n" ++
  "        END IF;\n" ++
  "        IF EXISTS (\n" ++
  "            SELECT FROM " ++ schema ++ "." ++ source ++ " as t\n" ++
  "            WHERE\n" ++
  "                " ++ condition_dup ++ " \n" ++
  "        ) THEN\n" ++
  "            " ++ action_dup ++ "\n" ++
  "            RETURN NULL;\n" ++
  "        END IF;\n" ++
  "        RETURN NEW;\n" ++
  "    END;\n" ++
  " \n" ++
  "$" ++ schema ++ "_" ++ source ++ "_validation$ LANGUAGE plpgsql;\n"

/-- The `VALIDATION_TRIGGER` template of `domain.py` (before the
`.strip()` applied at its use site). -/
def validation_trigger (schema name table : String) : String :=
  "\n    CREATE TRIGGER " ++ schema ++ "_" ++ name ++
  "_validation BEFORE INSERT ON " ++ table ++
  "\n        FOR EACH ROW EXECUTE FUNCTION " ++ schema ++ ".validate_" ++
  name ++ "();\n"

/-- The null-primary-key condition built at line 657 of `domain.py`: the
`OR`-join of `NEW.<c> IS NULL` over the primary-key columns. -/
def pk_null_condition (pk : List String) : String :=
  joinSep "\n\t\t\t\tOR " (pk.map (fun c => "NEW." ++ c ++ " IS NULL "))

/-- One key-matching condition of `Domain.add_fk_validation` (the
`for constraint in [pk, fk_columns]` loop body): the `AND`-join over the
constraint's columns of `NEW.<c> = t.<c>`, using the extracted generation
expression for generated columns. -/
def key_match_condition (columns_as_dict : List (String × ColDef))
    (columns : List Column) (constraint : List String) :
    Except String String := do
  let cols ← mapExcept (fun c =>
    match alookup columns_as_dict c with
    | some column =>
      if is_generated column then do
        let exp ← extract_generation_code column columns "NEW"
        Except.ok (exp ++ " = t." ++ c)
      else Except.ok ("NEW." ++ c ++ " = t." ++ c)
    | none => Except.error ("KeyError: " ++ c)) constraint
  Except.ok (joinSep "\n\t\t\t\tAND " cols)

/-- The `columns_as_dict` mapping of `Domain.add_fk_validation`: name to
definition, later duplicates overwriting earlier ones. -/
def columns_as_dict (columns : List Column) : List (String × ColDef) :=
  columns.foldl (fun acc c =>
    let (n, d) := split c
    dictSet acc n d) []

/-- The `cc` list of `Domain.add_fk_validation`: the names of the
non-generated columns, in declaration order. -/
def audit_columns (columns : List Column) : List String :=
  columns.filterMap (fun c =>
    let (n, d) := split c
    if is_generated d then none else some n)

/-- `Domain.add_fk_validation`: the validation procedure and trigger
statements appended for a table with an `invalid.records` policy. -/
def add_fk_validation (ctx : DomainSpec) (table : String)
    (pk : Option (List String)) (action : String) (target : Option String)
    (columns : List Column) (pt : Option String)
    (fk_columns : Option (List String)) : Except String (List String) := do
  let actions ←
    if action = "insert" then
      let cc := audit_columns columns
      let vv := cc.map (fun c => "NEW." ++ c)
      Except.ok (["DUPLICATE", "FOREIGN KEY", "PRIMARY KEY"].map (fun r =>
        audit_insert (pyStr target) (joinSep "," cc) (joinSep "," vv) r))
    else if action = "ignore" then Except.ok ["", "", ""]
    else Except.error ("Invalid action on validation for table " ++ table ++
        ": " ++ action)
  let pkL ← match pk with
    | some l => Except.ok l
    | none => Except.error "TypeError: NoneType is not iterable"
  let fkL ← match fk_columns with
    | some l => Except.ok l
    | none => Except.error "TypeError: NoneType is not iterable"
  let condition_dup ← key_match_condition (columns_as_dict columns) columns pkL
  let condition_fk ← key_match_condition (columns_as_dict columns) columns fkL
  let condition_pk := pk_null_condition pkL
  let t := basename table
  let parent_table ← match pt with
    | some p => Except.ok (fqn ctx p)
    | none =>
      match ctx.schema with
      | some _ => Except.error "TypeError: can only concatenate str to str"
      | none => Except.ok "None"
  let sql := validation_proc (pyStr ctx.schema) t parent_table
    (condition_dup) (actions.getD 0 "")
    (condition_fk) (actions.getD 1 "")
    (condition_pk) (actions.getD 2 "")
  let trg := pyStrip (validation_trigger (pyStr ctx.schema) t table)
  Except.ok [sql, trg]

/-! ### The table/view compiler -/

def TableDef.setColumns : TableDef → List Column → TableDef
  | .mk _ p ch cr i ir, c => .mk c p ch cr i ir

def TableDef.setPrimaryKey : TableDef → Option (List String) → TableDef
  | .mk c _ ch cr i ir, p => .mk c p ch cr i ir

def TableDef.setChildren : TableDef → List (String × TableDef) → TableDef
  | .mk c p _ cr i ir, ch => .mk c p ch cr i ir

/-- Write an updated definition back into the spec tree at a path of
table names, modelling Python's in-place mutation of the node's dict. -/
def updateTables : Tables → List String → TableDef → Tables
  | ts, [], _ => ts
  | ts, [n], td => ts.map (fun kv => if kv.1 = n then (kv.1, td) else kv)
  | ts, n :: m :: rest, td =>
    ts.map (fun kv =>
      if kv.1 = n then
        (kv.1, kv.2.setChildren (updateTables kv.2.children (m :: rest) td))
      else kv)

/-- `Domain.create_true_table`. -/
def create_true_table (ctx : DomainSpec) (table : String)
    (features : List String) : String :=
  create_table ctx table ++ " (\n\t" ++ joinSep ",\n\t" features ++ "\n);"

/-- `Domain.create_table_from_view`: the `CREATE TABLE … AS SELECT`
statement with one `ALTER TABLE … ADD` per feature, together with the
source view's column list that replaces the table's own `columns`. -/
def create_table_from_view (ctx : DomainSpec) (tree : Tables) (table : String)
    (definition : TableDef) (features : List String) :
    Except String (String × List Column) := do
  let create ← match definition.create with
    | some c => Except.ok c
    | none => Except.error "KeyError: create"
  let frm0 ← match create.from_ with
    | some s => Except.ok s
    | none => Except.error "KeyError: from"
  let frm := fqn ctx frm0
  let select := match create.select with
    | some s => s
    | none => "*"
  let base := "CREATE TABLE " ++ table ++ " AS SELECT " ++ select ++
    " FROM " ++ frm ++ ";\n"
  let stmt := features.foldl (fun acc f =>
    acc ++ "ALTER TABLE " ++ table ++ " ADD " ++ f ++ ";\n") base
  let pdef ← match findT tree frm0 with
    | some p => Except.ok p
    | none => Except.error "TypeError: NoneType is not subscriptable"
  Except.ok (stmt, pdef.columns)

/-- The result of compiling one node (before recursing into children):
the definition after its in-place mutations, the statements appended to
`ddl`/`ddl_by_table` (tagged with the owning table's qualified name), and
the entries appended to the deferred index bucket. -/
structure NodeOut where
  updated : TableDef
  stmts : List (String × String)
  deferred : List (String × String)

/-- The body of `Domain.ddl_for_node` minus the final recursion into
children (lines 265-388 of `domain.py`). -/
def ddlForNodeOwn (ctx : DomainSpec) (tree : Tables) (table_basename : String)
    (definition : TableDef) (parent : Option (String × TableDef)) :
    Except String NodeOut := do
  let columns0 := definition.columns
  let cnames := columns0.map (fun c => (split c).1)
  let table := fqn ctx table_basename
  let (object_type, is_view, is_table_from_view) :=
    match definition.create with
    | some create =>
      match create.type_ with
      | some ty =>
        let ot := pyLower ty
        (some ot, strContains ot "view", strContains ot "table")
      | none => ((none : Option String), false, false)
    | none => ((none : Option String), false, false)
  let (fk, ptable, fk_columns, columns) ←
    match parent with
    | none => Except.ok ((none : Option String), (none : Option String),
        (none : Option (List String)), columns0)
    | some (pt, pdef) => do
      let fkc ← match pdef.primary_key with
        | some l => Except.ok l
        | none => Except.error ("Parent table " ++ pt ++
            " must define primary key")
      let fk_column_list := joinSep ", " fkc
      let fks := "CONSTRAINT " ++ table_basename ++ "_to_" ++ pt ++
        " FOREIGN KEY (" ++ fk_column_list ++ ") REFERENCES " ++
        fqn ctx pt ++ " (" ++ fk_column_list ++ ")"
      let injected := pdef.columns.filter (fun column =>
        let (c, _) := split column
        fkc.contains c ∧ ¬ cnames.contains c)
      Except.ok (some fks, some pt, some fkc, columns0 ++ injected)
  let definition1 := definition.setColumns columns
  let features ←
    if is_view then
      mapExcept (fun c => view_column_spec ctx tree c definition1 table) columns
    else mapExcept column_spec columns
  let (create_stmt, pk_columns, definition2, features2, columns2) ←
    if is_view then do
      let create ← match definition.create with
        | some c => Except.ok c
        | none => Except.error "KeyError: create"
      let src ← match create.from_ with
        | some s => Except.ok s
        | none => Except.error "KeyError: from"
      let flag := if ctx.sloppy then "IF NOT EXISTS" else ""
      let base := "\nCREATE " ++ pyStr object_type ++ " " ++ flag ++ " " ++
        table ++ " AS\nSELECT\n    " ++ joinSep ",\n\t" features ++
        "\nFROM " ++ src ++ "\n"
      match create.group_by with
      | some gb =>
        let group_by := joinSep "," gb
        let not_null := joinSep " AND " (gb.map (fun c => c ++ " IS NOT NULL"))
        let stmt := base ++ "\nWHERE " ++ not_null ++ "\nGROUP BY " ++
          group_by ++ ";\n"
        let rm := columns.foldl (fun acc col =>
          let (c, cdef) := split col
          if cdef ≠ {} then
            match cdef.source with
            | some (.str s) => acc ++ [(s, c)]
            | _ => acc
          else acc) []
        let newPk := gb.map (fun c =>
          match alookupLast rm c with
          | some v => v
          | none => c)
        Except.ok (stmt, (none : Option (List String)),
          definition1.setPrimaryKey (some newPk), features, columns)
      | none =>
        Except.ok (pyStrip base ++ ";", (none : Option (List String)),
          definition1, features, columns)
    else do
      let (features1, pk_columns) :=
        match definition.primary_key with
        | some pkc =>
          (features ++ ["PRIMARY KEY (" ++ joinSep ", " pkc ++ ")"], some pkc)
        | none => (features, (none : Option (List String)))
      let features2 := match fk with
        | some f => features1 ++ [f]
        | none => features1
      if is_table_from_view then do
        let (stmt, newCols) ←
          create_table_from_view ctx tree table definition1 features2
        Except.ok (stmt, pk_columns, definition1.setColumns newCols,
          features2, newCols)
      else
        Except.ok (create_true_table ctx table features2, pk_columns,
          definition1, features2, columns)
  let stmts0 := [create_stmt]
  let stmts1 ←
    match definition.invalid_records with
    | none => Except.ok stmts0
    | some validation => do
      let action := pyLower validation.action
      let t2 ← spillover_table ctx table_basename definition2
      let extra ← match t2 with
        | some t2v => do
          let ff := features2.filter (fun f =>
            ¬ strContains f "CONSTRAINT" ∧ ¬ strContains f "PRIMARY KEY")
          let ff := ff ++ ["REASON VARCHAR(16)",
            "recorded_at TIMESTAMP DEFAULT CURRENT_TIMESTAMP "]
          Except.ok [create_table ctx t2v ++ " (\n\t" ++
            joinSep ",\n\t" ff ++ "\n);"]
        | none => Except.ok []
      let vstmts ← add_fk_validation ctx table pk_columns action t2 columns2
        ptable fk_columns
      Except.ok (stmts0 ++ extra ++ vstmts)
  let (onloadStmts, deferredStmts) :=
    if object_type ≠ some "view" then
      let entries := index_entries ctx table columns2
      (entries.filterMap (fun e => if e.1 then some e.2 else none),
       entries.filterMap (fun e => if e.1 then none else some e.2))
    else ([], [])
  let namedIdx ← mapExcept (fun kv => add_index ctx table kv.1 kv.2)
    definition.indices
  Except.ok ⟨definition2,
    (stmts1 ++ onloadStmts).map (fun s => (table, s)),
    (deferredStmts ++ namedIdx).map (fun s => (table, s))⟩

mutual
/-- `Domain.ddl_for_node`: compile one node, write its mutated definition
back into the tree, then recurse into the children with this node as
parent. -/
def ddl_for_node (ctx : DomainSpec) (tree : Tables) (path : List String)
    (table_basename : String) (definition : TableDef)
    (parent : Option (String × TableDef)) :
    Except String
      (Tables × TableDef × List (String × String) × List (String × String)) :=
  match definition with
  | .mk cols pk ch cr idx ir => do
    let own ← ddlForNodeOwn ctx tree table_basename (.mk cols pk ch cr idx ir)
      parent
    let path1 := path ++ [table_basename]
    let tree1 := updateTables tree path1 own.updated
    let (_, ch2, cstmts, cdefs) ←
      ddl_for_children ctx tree1 path1 ch table_basename own.updated
    let final := own.updated.setChildren ch2
    Except.ok (updateTables tree path1 final, final,
      own.stmts ++ cstmts, own.deferred ++ cdefs)
/-- The `for child in children` loop at the end of `Domain.ddl_for_node`. -/
def ddl_for_children (ctx : DomainSpec) (tree : Tables) (path : List String)
    (children : List (String × TableDef)) (pname : String) (pdef : TableDef) :
    Except String
      (Tables × List (String × TableDef) × List (String × String) ×
        List (String × String)) :=
  match children with
  | [] => Except.ok (tree, [], [], [])
  | (c, cd) :: rest => do
    let (tree1, cd2, s1, d1) ← ddl_for_node ctx tree path c cd
      (some (pname, pdef))
    let (tree2, rest2, s2, d2) ←
      ddl_for_children ctx tree1 path rest pname pdef
    Except.ok (tree2, (c, cd2) :: rest2, s1 ++ s2, d1 ++ d2)
end

/-- The output of `Domain.init`: the common (schema) statements, the
per-table tagged statements (`self.ddl` is `common` followed by the
statements in order), the deferred index bucket, and the spec tree after
compilation's mutations. -/
structure InitOut where
  common : List String
  stmts : List (String × String)
  deferred : List (String × String)
  tree : Tables

/-- The `for node in nodes` loop of `Domain.init`, threading the mutated
tree left to right. -/
def init_loop (ctx : DomainSpec) :
    Tables → List (String × TableDef) →
    Except String (Tables × List (String × String) × List (String × String))
  | tree, [] => Except.ok (tree, [], [])
  | tree, (n, td) :: rest => do
    let (tree1, _, s1, d1) ← ddl_for_node ctx tree [] n td none
    let (tree2, s2, d2) ← init_loop ctx tree1 rest
    Except.ok (tree2, s1 ++ s2, d1 ++ d2)

/-- `Domain.init`: emit `CREATE SCHEMA IF NOT EXISTS` for the configured
schema and each auxiliary `schema.`-prefixed declaration, then compile
every root table. -/
def init (ctx : DomainSpec) : Except String InitOut := do
  let common0 := match ctx.schema with
    | some s => ["CREATE SCHEMA IF NOT EXISTS " ++ s ++ ";"]
    | none => []
  let aux := ctx.vars.filterMap (fun kv =>
    if pyStartsWith kv.1 "schema." then
      some ("CREATE SCHEMA IF NOT EXISTS " ++ kv.2 ++ ";")
    else none)
  let (tree, stmts, deferred) ← init_loop ctx ctx.tables ctx.tables
  Except.ok ⟨common0 ++ aux, stmts, deferred, tree⟩

/-- `self.ddl` after `init`: the common statements followed by every
per-table statement in append order. -/
def domainDdl (out : InitOut) : List String :=
  out.common ++ out.stmts.map Prod.snd

/-! ### Dependency closure (`Domain.find_dependent`) -/

/-- An entry of the dictionary returned by `find_dependent`: the found
table definition, or the empty-string marker stored for a spillover
target. -/
inductive DepEntry where
  | tbl (td : TableDef)
  | spill

/-- The errors `find_dependent` can raise: `LookupError` for an unknown
table, a propagated `KeyError`/`IndexError` from spillover resolution,
and exhaustion of the recursion fuel (Python would exceed the recursion
limit). -/
inductive DepErr where
  | lookupErr (msg : String)
  | keyErr (msg : String)
  | fuelOut
deriving DecidableEq

/-- `Domain.find_dependent`: the table, the closure of its children by
repeated by-name lookup, and its spillover target.  The recursion is by
global name lookup, not structurally on the tree, so it is given explicit
fuel. -/
def find_dependent (ctx : DomainSpec) : Nat → String →
    Except DepErr (List (String × DepEntry))
  | 0, _ => Except.error DepErr.fuelOut
  | fuel + 1, table =>
    match findT ctx.tables table with
    | none => Except.error (DepErr.lookupErr ("Table " ++ table ++
        " does not exist in domain"))
    | some t => do
      let base := [(fqn ctx table, DepEntry.tbl t)]
      let result ← foldlExcept (fun acc kv => do
        let r ← find_dependent ctx fuel kv.1
        Except.ok (dictUpdate acc r)) base t.children
      let t2 ← match spillover_table ctx table t with
        | Except.ok v => Except.ok v
        | Except.error e => Except.error (DepErr.keyErr e)
      match t2 with
      | some s => Except.ok (dictSet result s DepEntry.spill)
      | none => Except.ok result

/-- The accumulating `result.update(self.find_dependent(child))` loop of
`find_dependent`, as a named fold. -/
def depFold (ctx : DomainSpec) (fuel : Nat)
    (acc : List (String × DepEntry)) (ch : Tables) :
    Except DepErr (List (String × DepEntry)) :=
  foldlExcept (fun acc kv => do
    let r ← find_dependent ctx fuel kv.1
    Except.ok (dictUpdate acc r)) acc ch

/-! ### Semantic reading of the generated SQL conditions -/

/-- SQL truth value of the `OR`-join of `NEW.<c> IS NULL` atoms emitted
by `pk_null_condition`, for a row whose null columns are exactly
`nulls`: the disjunction holds iff some primary-key column is null. -/
def pkNullCondHolds (nulls pk : List String) : Bool :=
  pk.any (fun c => nulls.contains c)

/-- A row has all its primary-key columns null. -/
def allPkNull (nulls pk : List String) : Bool :=
  pk.all (fun c => nulls.contains c)

/-! ### Tree vocabulary used by the ordering and frame theorems -/

mutual
/-- The basenames of all tables strictly below a node. -/
def subtreeBasenames (td : TableDef) : List String :=
  match td with
  | .mk _ _ ch _ _ _ => childrenBasenames ch
/-- The basenames of all tables in a forest (the keys of the mapping and
all their descendants). -/
def childrenBasenames (ts : Tables) : List String :=
  match ts with
  | [] => []
  | (n, d) :: rest => n :: (subtreeBasenames d ++ childrenBasenames rest)
end

/-- Every table basename of a domain's tree. -/
def all_table_names (ts : Tables) : List String := childrenBasenames ts

mutual
/-- The declared parent-child basename pairs below a named node,
including the node's own children. -/
def pairsOf (n : String) (td : TableDef) : List (String × String) :=
  match td with
  | .mk _ _ ch _ _ _ => ch.map (fun kv => (n, kv.1)) ++ pairsList ch
/-- All declared parent-child basename pairs within a forest. -/
def pairsList (ts : Tables) : List (String × String) :=
  match ts with
  | [] => []
  | (m, d) :: rest => pairsOf m d ++ pairsList rest
end

/-- All declared parent-child pairs of a domain. -/
def parent_child_pairs (ts : Tables) : List (String × String) := pairsList ts

/-- The table tags of a tagged statement list. -/
def tagsOf (l : List (String × String)) : List String := l.map Prod.fst

mutual
/-- No `create` clause anywhere in a subtree (plain tables only). -/
def noCreateT (td : TableDef) : Bool :=
  match td with
  | .mk _ _ ch cr _ _ =>
    match cr with
    | none => noCreateL ch
    | some _ => false
/-- No `create` clause anywhere in a forest. -/
def noCreateL (ts : Tables) : Bool :=
  match ts with
  | [] => true
  | (_, d) :: rest => noCreateT d && noCreateL rest
end

mutual
/-- The frame relation of compilation on a single definition: the
`columns` list may only grow by appended entries, and every other field
— `primary_key`, `create`, `indices`, `invalid.records` — and the set and
order of children keys are unchanged, recursively. -/
def frameOkT (td td' : TableDef) : Bool :=
  match td, td' with
  | .mk c p ch cr i ir, .mk c' p' ch' cr' i' ir' =>
    decide (p' = p) && decide (cr' = cr) && decide (i' = i) &&
    decide (ir' = ir) && List.isPrefixOf c c' && frameOkL ch ch'
/-- The frame relation, pointwise on a forest. -/
def frameOkL : Tables → Tables → Bool
  | [], [] => true
  | (n, d) :: rest, (n', d') :: rest' =>
    decide (n' = n) && frameOkT d d' && frameOkL rest rest'
  | _, _ => false
end

mutual
/-- All strict-descendant tables of a node, with their definitions, in
traversal order. -/
def subtreeTablesT (td : TableDef) : List (String × TableDef) :=
  match td with
  | .mk _ _ ch _ _ _ => subtreeTablesL ch
/-- All tables of a forest (entries and their descendants). -/
def subtreeTablesL (ts : Tables) : List (String × TableDef) :=
  match ts with
  | [] => []
  | (n, d) :: rest => (n, d) :: (subtreeTablesT d ++ subtreeTablesL rest)
end

mutual
/-- The key sequence `find_dependent` produces for a node when every
lookup resolves to the node's own subtree: the node's qualified name,
the closures of its children in order, then its spillover target. -/
def depKeysT (ctx : DomainSpec) (n : String) (td : TableDef) : List String :=
  match td with
  | .mk c p ch cr i ir =>
    fqn ctx n :: (depKeysL ctx ch ++
      (match spillover_table ctx n (.mk c p ch cr i ir) with
       | Except.ok (some s) => [s]
       | _ => []))
/-- Concatenated `find_dependent` key sequences of a forest. -/
def depKeysL (ctx : DomainSpec) : Tables → List String
  | [] => []
  | (m, d) :: rest => depKeysT ctx m d ++ depKeysL ctx rest
end

mutual
/-- Height of a definition node: one more than its children forest, the
recursion depth `find_dependent` needs below the node. -/
def heightT (td : TableDef) : Nat :=
  match td with
  | .mk _ _ ch _ _ _ => heightL ch + 1
/-- Height of a forest: the maximum height of its nodes. -/
def heightL : Tables → Nat
  | [] => 0
  | (_, d) :: rest => max (heightT d) (heightL rest)
end

/-! ### Concrete domains used by counterexamples and witnesses -/

/-- A bare compiler state with schema `s` and no tables, for direct calls
to the synthesis helpers. -/
def vCtx : DomainSpec :=
  { schema := some "s", vars := [("schema", "s")], tables := [],
    index_policy := "selected", sloppy := false, concurrent_indices := false,
    indexMethod := fun _ => none }

/-- A one-table domain with a schema, compiled without sloppy mode. -/
def ctxNoSloppy : DomainSpec :=
  { schema := some "s", vars := [("schema", "s")],
    tables := [("t", .mk [.bare "id",
      .defined "v" { type_ := some "INT", index := some (.bool true) }]
      (some ["id"]) [] none [] none)],
    index_policy := "selected", sloppy := false, concurrent_indices := false,
    indexMethod := fun _ => none }

/-- A sloppy-mode domain containing a table-from-view. -/
def ctxTfv : DomainSpec :=
  { schema := some "s", vars := [("schema", "s")],
    tables := [("v0", .mk [.bare "a"] none [] none [] none),
      ("m", .mk [.bare "b"] none []
        (some { type_ := some "table", from_ := some "v0" }) [] none)],
    index_policy := "selected", sloppy := true, concurrent_indices := false,
    indexMethod := fun _ => none }

/-- A parent table with one child lacking the foreign-key column. -/
def ctxParentChild : DomainSpec :=
  { schema := some "s", vars := [("schema", "s")],
    tables := [("parent", .mk [.bare "id"] (some ["id"])
      [("child", .mk [.bare "other"] none [] none [] none)] none [] none)],
    index_policy := "selected", sloppy := false, concurrent_indices := false,
    indexMethod := fun _ => none }

/-- A parent-child domain whose child declares an `invalid.records`
policy with `action = INSERT` and a spillover target schema. -/
def ctxSpill : DomainSpec :=
  { schema := some "s", vars := [("schema", "s")],
    tables := [("parent", .mk [.bare "id", .bare "a"] (some ["id"])
      [("child", .mk [.bare "b"] (some ["b"]) [] none []
        (some { action := "INSERT",
                target := some { schema := some "aud", table := none } }))]
      none [] none)],
    index_policy := "selected", sloppy := false, concurrent_indices := false,
    indexMethod := fun _ => none }

/-- The `ctxSpill` domain with the child's action replaced by an
unrecognized value. -/
def ctxBadAction : DomainSpec :=
  { schema := some "s", vars := [("schema", "s")],
    tables := [("parent", .mk [.bare "id", .bare "a"] (some ["id"])
      [("child", .mk [.bare "b"] (some ["b"]) [] none []
        (some { action := "purge",
                target := some { schema := some "aud", table := none } }))]
      none [] none)],
    index_policy := "selected", sloppy := false, concurrent_indices := false,
    indexMethod := fun _ => none }

/-- A domain under index policy `all`. -/
def ctxAll : DomainSpec :=
  { schema := some "s", vars := [("schema", "s")],
    tables := [("t", .mk [.bare "id", .bare "w"] (some ["id"]) [] none [] none)],
    index_policy := "all", sloppy := false, concurrent_indices := false,
    indexMethod := fun _ => none }

/-- A domain under index policy `explicit` whose columns declare no
`index` attribute. -/
def ctxExplicit : DomainSpec :=
  { schema := some "s", vars := [("schema", "s")],
    tables := [("t", .mk [.bare "id", .bare "w"] (some ["id"]) [] none [] none)],
    index_policy := "explicit", sloppy := false, concurrent_indices := false,
    indexMethod := fun _ => none }

/-- All statements tagged `a` occur in the first part of some split of
the tagged list, and all statements tagged `b` in the second part — the
form in which "every `a` statement precedes every `b` statement" is
established compositionally. -/
def SplitBefore (l : List (String × String)) (a b : String) : Prop :=
  ∃ l1 l2, l = l1 ++ l2 ∧ a ∉ tagsOf l2 ∧ b ∉ tagsOf l1

/-- A plain string list splits so that every occurrence of `a` lies in the
left part and every occurrence of `b` in the right part. -/
def SplitBeforeS (l : List String) (a b : String) : Prop :=
  ∃ l1 l2, l = l1 ++ l2 ∧ a ∉ l2 ∧ b ∉ l1

/-! ## Theorems

General lemmas about the string primitives, followed by one theorem per
claim of the specification review. -/

@[simp] theorem exc_bind_ok {ε α β : Type} (a : α) (f : α → Except ε β) :
    (do let x ← Except.ok a; f x : Except ε β) = f a := rfl

@[simp] theorem exc_bind_err {ε α β : Type} (e : ε) (f : α → Except ε β) :
    (do let x ← Except.error e; f x : Except ε β) = Except.error e := rfl

@[simp] theorem exc_pure_eq_ok {ε α : Type} (a : α) :
    (pure a : Except ε α) = Except.ok a := rfl

theorem subIdx_isSome_of_prefix_drop {p : List Char} (n : Nat) {l : List Char}
    (h : List.isPrefixOf p (List.drop n l) = true) :
    (subIdx l p).isSome = true := by
  induction n generalizing l with
  | zero =>
    rw [List.drop_zero] at h
    cases l with
    | nil => simp [subIdx, h]
    | cons c t => simp [subIdx, h]
  | succ m ih =>
    cases l with
    | nil =>
      rw [List.drop_nil] at h
      cases p with
      | nil => simp [subIdx]
      | cons q qs => simp [List.isPrefixOf] at h
    | cons c t =>
      rw [List.drop_succ_cons] at h
      have hrec := ih h
      by_cases hp : List.isPrefixOf p (c :: t)
      · simp [subIdx, hp]
      · simp [subIdx, hp, hrec]

theorem strContains_of_decomp (s p : String) (a b : List Char)
    (h : s.data = a ++ (p.data ++ b)) : strContains s p = true := by
  have hpre : List.isPrefixOf p.data (List.drop a.length s.data) = true := by
    rw [h, List.drop_left]
    exact List.isPrefixOf_iff_prefix.mpr (List.prefix_append _ _)
  simpa [strContains, pyIndexOf] using subIdx_isSome_of_prefix_drop a.length hpre

theorem strContains_middle (a x b : String) :
    strContains (a ++ x ++ b) x = true := by
  apply strContains_of_decomp _ _ a.data b.data
  simp [String.data_append]

theorem joinSep_mem_decomp (sep x : String) (l : List String) (h : x ∈ l) :
    ∃ a b : List Char, (joinSep sep l).data = a ++ (x.data ++ b) := by
  induction l with
  | nil => cases h
  | cons y t ih =>
    cases h with
    | head =>
      cases t with
      | nil => exact ⟨[], [], by simp [joinSep]⟩
      | cons z zs =>
        exact ⟨[], (sep ++ joinSep sep (z :: zs)).data,
          by simp [joinSep, String.data_append]⟩
    | tail _ hx =>
      cases t with
      | nil => cases hx
      | cons z zs =>
        obtain ⟨a, b, hab⟩ := ih hx
        exact ⟨y.data ++ sep.data ++ a, b,
          by simp [joinSep, String.data_append, hab]⟩

theorem subIdx_append_left_free {rest : List Char} {q : Char} {qs : List Char}
    (a : List Char) (h : q ∉ a) :
    (subIdx (a ++ rest) (q :: qs)).isSome = (subIdx rest (q :: qs)).isSome := by
  induction a with
  | nil => simp
  | cons c t ih =>
    have hq : (q == c) = false := by
      simp only [beq_eq_false_iff_ne]
      exact fun e => h (e ▸ List.mem_cons_self c t)
    have hnp : List.isPrefixOf (q :: qs) (c :: (t ++ rest)) = false := by
      simp [List.isPrefixOf, hq]
    have ht : q ∉ t := fun hm => h (List.mem_cons_of_mem c hm)
    simp [subIdx, hnp, ih ht]

theorem strContains_fixed_prefix (pre s pat : String) (q : Char)
    (qs : List Char) (hpat : pat.data = q :: qs) (hq : q ∉ pre.data) :
    strContains (pre ++ s) pat = strContains s pat := by
  simp only [strContains, pyIndexOf, String.data_append, hpat]
  exact subIdx_append_left_free pre.data hq

theorem pyStartsWith_append_of_prefix (a b pre : String)
    (h : List.isPrefixOf pre.data a.data = true) :
    pyStartsWith (a ++ b) pre = true := by
  simp only [pyStartsWith, String.data_append]
  exact List.isPrefixOf_iff_prefix.mpr
    ((List.isPrefixOf_iff_prefix.mp h).trans (List.prefix_append _ _))

/-! ### Claim C7 — `column_spec` output shapes -/

/-- C7: `column_spec` returns `"<name> <type>"` for a plain column (type
defaulting to `VARCHAR`), `"<name> <type> <code>"` for a generated column
with the `code` field copied verbatim, and fails with the
configuration error when a generated column omits `code`. -/
theorem C7_column_spec_characterization (name : String) (c : ColDef) :
    (is_generated c = false →
      column_spec (.defined name c) =
        Except.ok (name ++ " " ++
          (match c.type_ with
           | some t => t
           | none => "VARCHAR"))) ∧
    (∀ o : SourceObj, c.source = some (.obj o) → is_generated c = true →
      (∀ code, o.code = some code →
        column_spec (.defined name c) =
          Except.ok (name ++ " " ++
            (match c.type_ with
             | some t => t
             | none => "VARCHAR") ++ " " ++ code)) ∧
      (o.code = none →
        column_spec (.defined name c) =
          Except.error "Generated column must specify the compute code")) ∧
    (column_spec (.bare name) = Except.ok (name ++ " " ++ "VARCHAR")) := by
  refine ⟨?_, ?_, ?_⟩
  · intro hng
    simp [column_spec, split, hng]
  · intro o hsrc hg
    constructor
    · intro code hcode
      simp [column_spec, split, hg, hsrc, hcode]
    · intro hcode
      simp [column_spec, split, hg, hsrc, hcode]
  · have : is_generated ({} : ColDef) = false := by decide
    simp [column_spec, split, this]

/-- Witness for C7 at concrete columns. -/
theorem C7_column_spec_characterization_witness :
    column_spec (.defined "v" { type_ := some "INT" }) =
      Except.ok ("v" ++ " " ++ "INT") ∧
    column_spec (.defined "g" { type_ := some "INT", source := some (.obj
      { type_ := some "generated", code := some "INT GENERATED ALWAYS AS (a + 1) STORED" }) }) =
      Except.ok ("g" ++ " " ++ "INT" ++ " " ++ "INT GENERATED ALWAYS AS (a + 1) STORED") ∧
    column_spec (.defined "g" { type_ := some "INT", source := some (.obj
      { type_ := some "generated" }) }) =
      Except.error "Generated column must specify the compute code" := by
  refine ⟨(C7_column_spec_characterization "v" { type_ := some "INT" }).1 (by decide),
    (((C7_column_spec_characterization "g" _).2.1
      { type_ := some "generated", code := some "INT GENERATED ALWAYS AS (a + 1) STORED" }
      rfl (by decide)).1 _ rfl),
    (((C7_column_spec_characterization "g" _).2.1
      { type_ := some "generated" } rfl (by decide)).2 rfl)⟩

/-! ### Claim C6 — index policy law -/

/-- C6: under policy `all`, every declared column yields exactly one
index entry (onload or deferred); under policy `explicit`, columns
without an `index` attribute yield none. -/
theorem C6_index_policy_law (ctx : DomainSpec) (table : String)
    (columns : List Column) :
    (ctx.index_policy = "all" →
      index_entries ctx table columns =
        columns.map (fun c =>
          ((get_index_ddl ctx table c).2, (get_index_ddl ctx table c).1))) ∧
    (ctx.index_policy = "explicit" →
      (∀ c ∈ columns, (split c).2.index = none) →
      index_entries ctx table columns = []) := by
  constructor
  · intro hall
    induction columns with
    | nil => rfl
    | cons c t ih =>
      have hni : need_index ctx c = true := by simp [need_index, hall]
      simp only [index_entries, List.filterMap_cons, List.map_cons, hni,
        if_true] at ih ⊢
      exact congrArg _ ih
  · intro hexp hnone
    induction columns with
    | nil => rfl
    | cons c t ih =>
      have hni : need_index ctx c = false := by
        have h1 : (split c).2.index = none := hnone c (List.mem_cons_self c t)
        simp [need_index, hexp, h1]
      have ht : ∀ x ∈ t, (split x).2.index = none := fun x hx =>
        hnone x (List.mem_cons_of_mem c hx)
      simp only [index_entries, List.filterMap_cons, hni] at ih ⊢
      simp only [Bool.false_eq_true, if_false]
      exact ih ht

/-- Witness for C6 at concrete domains under each policy. -/
theorem C6_index_policy_law_witness :
    index_entries ctxAll "s.t" [.bare "id", .bare "w"] =
      [(false, "CREATE INDEX  t_id_idx ON s.t USING BTREE (id);"),
       (false, "CREATE INDEX  t_w_idx ON s.t USING BTREE (w);")] ∧
    index_entries ctxExplicit "s.t" [.bare "id", .bare "w"] = [] := by
  refine ⟨((C6_index_policy_law ctxAll "s.t" [.bare "id", .bare "w"]).1
      rfl).trans (by decide),
    (C6_index_policy_law ctxExplicit "s.t" [.bare "id", .bare "w"]).2
      rfl (by decide)⟩

/-! ### Shape lemmas for `add_fk_validation` -/

theorem mapExcept_ok_of_forall {ε α β : Type} (f : α → Except ε β)
    (g : α → β) (l : List α) (h : ∀ x ∈ l, f x = Except.ok (g x)) :
    mapExcept f l = Except.ok (l.map g) := by
  induction l with
  | nil => rfl
  | cons x t ih =>
    simp [mapExcept, h x (List.mem_cons_self x t),
      ih (fun y hy => h y (List.mem_cons_of_mem x hy))]

theorem key_match_condition_plain (dict : List (String × ColDef))
    (columns : List Column) (constraint : List String)
    (h : ∀ c ∈ constraint, ∃ d, alookup dict c = some d ∧
      is_generated d = false) :
    key_match_condition dict columns constraint =
      Except.ok (joinSep "\n\t\t\t\tAND "
        (constraint.map (fun c => "NEW." ++ c ++ " = t." ++ c))) := by
  have hm := mapExcept_ok_of_forall
    (fun c =>
      match alookup dict c with
      | some column =>
        if is_generated column then do
          let exp ← extract_generation_code column columns "NEW"
          Except.ok (exp ++ " = t." ++ c)
        else Except.ok ("NEW." ++ c ++ " = t." ++ c)
      | none => Except.error ("KeyError: " ++ c))
    (fun c => "NEW." ++ c ++ " = t." ++ c) constraint
    (by
      intro c hc
      obtain ⟨d, hd, hg⟩ := h c hc
      simp [hd, hg])
  simp only [key_match_condition, hm]
  rfl

theorem add_fk_validation_insert_shape (ctx : DomainSpec) (table p : String)
    (pkL fkL : List String) (columns : List Column) (t2 : Option String)
    (hpk : ∀ c ∈ pkL, ∃ d, alookup (columns_as_dict columns) c = some d ∧
      is_generated d = false)
    (hfk : ∀ c ∈ fkL, ∃ d, alookup (columns_as_dict columns) c = some d ∧
      is_generated d = false) :
    add_fk_validation ctx table (some pkL) "insert" t2 columns (some p)
      (some fkL) =
    Except.ok [validation_proc (pyStr ctx.schema) (basename table) (fqn ctx p)
      (joinSep "\n\t\t\t\tAND " (pkL.map (fun c => "NEW." ++ c ++ " = t." ++ c)))
      (audit_insert (pyStr t2) (joinSep "," (audit_columns columns))
        (joinSep "," ((audit_columns columns).map (fun c => "NEW." ++ c)))
        "DUPLICATE")
      (joinSep "\n\t\t\t\tAND " (fkL.map (fun c => "NEW." ++ c ++ " = t." ++ c)))
      (audit_insert (pyStr t2) (joinSep "," (audit_columns columns))
        (joinSep "," ((audit_columns columns).map (fun c => "NEW." ++ c)))
        "FOREIGN KEY")
      (pk_null_condition pkL)
      (audit_insert (pyStr t2) (joinSep "," (audit_columns columns))
        (joinSep "," ((audit_columns columns).map (fun c => "NEW." ++ c)))
        "PRIMARY KEY"),
      pyStrip (validation_trigger (pyStr ctx.schema) (basename table) table)]
    := by
  have h1 := key_match_condition_plain (columns_as_dict columns) columns pkL hpk
  have h2 := key_match_condition_plain (columns_as_dict columns) columns fkL hfk
  simp [add_fk_validation, h1, h2, List.getD]

theorem add_fk_validation_ignore_shape (ctx : DomainSpec) (table p : String)
    (pkL fkL : List String) (columns : List Column) (t2 : Option String)
    (hpk : ∀ c ∈ pkL, ∃ d, alookup (columns_as_dict columns) c = some d ∧
      is_generated d = false)
    (hfk : ∀ c ∈ fkL, ∃ d, alookup (columns_as_dict columns) c = some d ∧
      is_generated d = false) :
    add_fk_validation ctx table (some pkL) "ignore" t2 columns (some p)
      (some fkL) =
    Except.ok [validation_proc (pyStr ctx.schema) (basename table) (fqn ctx p)
      (joinSep "\n\t\t\t\tAND " (pkL.map (fun c => "NEW." ++ c ++ " = t." ++ c)))
      ""
      (joinSep "\n\t\t\t\tAND " (fkL.map (fun c => "NEW." ++ c ++ " = t." ++ c)))
      ""
      (pk_null_condition pkL)
      "",
      pyStrip (validation_trigger (pyStr ctx.schema) (basename table) table)]
    := by
  have h1 := key_match_condition_plain (columns_as_dict columns) columns pkL hpk
  have h2 := key_match_condition_plain (columns_as_dict columns) columns fkL hfk
  simp [add_fk_validation, h1, h2, List.getD]

theorem audit_columns_eq_filter_map (columns : List Column) :
    audit_columns columns =
      (columns.filter (fun c => ! is_generated (split c).2)).map
        (fun c => (split c).1) := by
  induction columns with
  | nil => rfl
  | cons c t ih =>
    by_cases hg : is_generated (split c).2 = true
    · simp [audit_columns, List.filterMap_cons, List.filter_cons, hg] at ih ⊢
      exact ih
    · rw [Bool.not_eq_true] at hg
      simp [audit_columns, List.filterMap_cons, List.filter_cons, hg] at ih ⊢
      exact ih

/-! ### Claim C10 — audit INSERT column lists -/

/-- C10: the audit `INSERT` statements list exactly the non-generated
columns, in declaration order, as both the column list and the
`NEW.`-qualified value list; generated columns are excluded. -/
theorem C10_audit_insert_column_lists (ctx : DomainSpec) (table p : String)
    (pkL fkL : List String) (columns : List Column) (t2 : Option String)
    (hpk : ∀ c ∈ pkL, ∃ d, alookup (columns_as_dict columns) c = some d ∧
      is_generated d = false)
    (hfk : ∀ c ∈ fkL, ∃ d, alookup (columns_as_dict columns) c = some d ∧
      is_generated d = false) :
    audit_columns columns =
      (columns.filter (fun c => ! is_generated (split c).2)).map
        (fun c => (split c).1) ∧
    add_fk_validation ctx table (some pkL) "insert" t2 columns (some p)
      (some fkL) =
    Except.ok [validation_proc (pyStr ctx.schema) (basename table) (fqn ctx p)
      (joinSep "\n\t\t\t\tAND " (pkL.map (fun c => "NEW." ++ c ++ " = t." ++ c)))
      (audit_insert (pyStr t2) (joinSep "," (audit_columns columns))
        (joinSep "," ((audit_columns columns).map (fun c => "NEW." ++ c)))
        "DUPLICATE")
      (joinSep "\n\t\t\t\tAND " (fkL.map (fun c => "NEW." ++ c ++ " = t." ++ c)))
      (audit_insert (pyStr t2) (joinSep "," (audit_columns columns))
        (joinSep "," ((audit_columns columns).map (fun c => "NEW." ++ c)))
        "FOREIGN KEY")
      (pk_null_condition pkL)
      (audit_insert (pyStr t2) (joinSep "," (audit_columns columns))
        (joinSep "," ((audit_columns columns).map (fun c => "NEW." ++ c)))
        "PRIMARY KEY"),
      pyStrip (validation_trigger (pyStr ctx.schema) (basename table) table)]
    :=
  ⟨audit_columns_eq_filter_map columns,
   add_fk_validation_insert_shape ctx table p pkL fkL columns t2 hpk hfk⟩

/-- Witness for C10: a concrete table with one generated column shows the
audit lists skip it while keeping declaration order. -/
theorem C10_audit_insert_column_lists_witness :
    audit_columns [.bare "a",
      .defined "g" { type_ := some "INT", source := some (.obj
        { type_ := some "generated", code := some "AS (a) STORED" }) },
      .bare "b"] = ["a", "b"] ∧
    (add_fk_validation vCtx "s.child" (some ["a"]) "insert" (some "aud.child")
      [.bare "a",
       .defined "g" { type_ := some "INT", source := some (.obj
         { type_ := some "generated", code := some "AS (a) STORED" }) },
       .bare "b"] (some "parent") (some ["a"])).isOk = true := by
  have h := C10_audit_insert_column_lists vCtx "s.child" "parent" ["a"] ["a"]
    [.bare "a",
     .defined "g" { type_ := some "INT", source := some (.obj
       { type_ := some "generated", code := some "AS (a) STORED" }) },
     .bare "b"] (some "aud.child")
    (by decide) (by decide)
  exact ⟨h.1.trans (by decide), by rw [h.2]; rfl⟩

/-! ### Claim C4 — validation branch order (corrected) -/

set_option maxRecDepth 8192 in
/-- C4 counterexample: for the two-column primary key `[a, b]` the
generated procedure's first branch tests the `OR`-join
`NEW.a IS NULL OR NEW.b IS NULL`.  Under SQL semantics
(`pkNullCondHolds`) that disjunction is already true for a row whose
only null column is `a`, where "all of the row's primary-key columns are
null" (`allPkNull`) is false — so the first branch is an any-null test,
not the all-null test the claim states. -/
theorem C4_validation_branch_order_counterexample :
    (match add_fk_validation vCtx "s.child" (some ["a", "b"]) "insert"
        (some "aud.child") [.bare "a", .bare "b"] (some "parent")
        (some ["a", "b"]) with
     | .ok [p, _] =>
       strContains p ("IF (" ++ pk_null_condition ["a", "b"] ++ ") THEN")
     | _ => false) = true ∧
    pk_null_condition ["a", "b"] =
      "NEW.a IS NULL \n\t\t\t\tOR NEW.b IS NULL " ∧
    pkNullCondHolds ["a"] ["a", "b"] = true ∧
    allPkNull ["a"] ["a", "b"] = false := by
  refine ⟨?_, by decide, by decide, by decide⟩
  decide

/-- C4 as amended: for `action = insert` the generated procedure is the
`VALIDATION_PROC` template whose branches, in order, (1) test the
`OR`-join of `NEW.<c> IS NULL` over the primary-key columns — true when
ANY primary-key column is null — and insert the audit row tagged
`PRIMARY KEY` then suppress the insert, (2) test absence of a matching
parent row and divert with tag `FOREIGN KEY`, (3) test an existing row
with the same primary key and divert with tag `DUPLICATE`, and otherwise
`RETURN NEW`. -/
theorem C4_validation_branch_order (ctx : DomainSpec) (table p : String)
    (pkL fkL : List String) (columns : List Column) (t2 : Option String)
    (nulls : List String)
    (hpk : ∀ c ∈ pkL, ∃ d, alookup (columns_as_dict columns) c = some d ∧
      is_generated d = false)
    (hfk : ∀ c ∈ fkL, ∃ d, alookup (columns_as_dict columns) c = some d ∧
      is_generated d = false) :
    add_fk_validation ctx table (some pkL) "insert" t2 columns (some p)
      (some fkL) =
    Except.ok [validation_proc (pyStr ctx.schema) (basename table) (fqn ctx p)
      (joinSep "\n\t\t\t\tAND " (pkL.map (fun c => "NEW." ++ c ++ " = t." ++ c)))
      (audit_insert (pyStr t2) (joinSep "," (audit_columns columns))
        (joinSep "," ((audit_columns columns).map (fun c => "NEW." ++ c)))
        "DUPLICATE")
      (joinSep "\n\t\t\t\tAND " (fkL.map (fun c => "NEW." ++ c ++ " = t." ++ c)))
      (audit_insert (pyStr t2) (joinSep "," (audit_columns columns))
        (joinSep "," ((audit_columns columns).map (fun c => "NEW." ++ c)))
        "FOREIGN KEY")
      (pk_null_condition pkL)
      (audit_insert (pyStr t2) (joinSep "," (audit_columns columns))
        (joinSep "," ((audit_columns columns).map (fun c => "NEW." ++ c)))
        "PRIMARY KEY"),
      pyStrip (validation_trigger (pyStr ctx.schema) (basename table) table)]
    ∧ (pkNullCondHolds nulls pkL = true ↔ ∃ c ∈ pkL, c ∈ nulls) := by
  refine ⟨add_fk_validation_insert_shape ctx table p pkL fkL columns t2 hpk hfk, ?_⟩
  simp [pkNullCondHolds, List.any_eq_true, List.contains_iff_exists_mem_beq,
    beq_iff_eq]

/-- Witness for C4 at a concrete two-column primary key. -/
theorem C4_validation_branch_order_witness :
    (add_fk_validation vCtx "s.child" (some ["a", "b"]) "insert"
      (some "aud.child") [.bare "a", .bare "b"] (some "parent")
      (some ["a", "b"])).isOk = true ∧
    (pkNullCondHolds ["a"] ["a", "b"] = true ↔
      ∃ c ∈ ["a", "b"], c ∈ ["a"]) := by
  have h := C4_validation_branch_order vCtx "s.child" "parent" ["a", "b"]
    ["a", "b"] [.bare "a", .bare "b"] (some "aud.child") ["a"]
    (by decide) (by decide)
  exact ⟨by rw [h.1]; rfl, h.2⟩

/-! ### Claim C5 — `ignore` and invalid actions -/

/-- C5: with `action = ignore` (actions are lowercased by the caller) the
same procedure and trigger are emitted as for `insert` but with the three
audit slots empty; any other lowercased action yields the configuration
error (the Python `Exception` raised by `add_fk_validation`) and no
statements; compiling a concrete domain whose action is `purge` fails
with exactly that error. -/
theorem C5_ignore_and_invalid_actions (ctx : DomainSpec) (table p : String)
    (pkL fkL : List String) (columns : List Column) (t2 : Option String)
    (pk0 fk0 : Option (List String)) (cols0 : List Column)
    (pt0 : Option String) (t20 : Option String)
    (hpk : ∀ c ∈ pkL, ∃ d, alookup (columns_as_dict columns) c = some d ∧
      is_generated d = false)
    (hfk : ∀ c ∈ fkL, ∃ d, alookup (columns_as_dict columns) c = some d ∧
      is_generated d = false) :
    (∀ raw, pyLower raw = "ignore" →
      add_fk_validation ctx table (some pkL) (pyLower raw) t2 columns (some p)
        (some fkL) =
      Except.ok [validation_proc (pyStr ctx.schema) (basename table)
        (fqn ctx p)
        (joinSep "\n\t\t\t\tAND "
          (pkL.map (fun c => "NEW." ++ c ++ " = t." ++ c)))
        ""
        (joinSep "\n\t\t\t\tAND "
          (fkL.map (fun c => "NEW." ++ c ++ " = t." ++ c)))
        ""
        (pk_null_condition pkL)
        "",
        pyStrip (validation_trigger (pyStr ctx.schema) (basename table)
          table)]) ∧
    (∀ act, pyLower act ≠ "insert" → pyLower act ≠ "ignore" →
      add_fk_validation ctx table pk0 (pyLower act) t20 cols0 pt0 fk0 =
        Except.error ("Invalid action on validation for table " ++ table ++
          ": " ++ pyLower act)) ∧
    (init ctxBadAction).isOk = false ∧
    (match init ctxBadAction with
     | .error m => m
     | .ok _ => "") =
      "Invalid action on validation for table s.child: purge"
    := by
  refine ⟨?_, ?_, by decide, by decide⟩
  · intro raw hraw
    rw [hraw]
    exact add_fk_validation_ignore_shape ctx table p pkL fkL columns t2 hpk hfk
  · intro act h1 h2
    simp only [add_fk_validation, if_neg h1, if_neg h2]
    rfl

/-- Witness for C5 at a concrete mixed-case action and a concrete invalid
action. -/
theorem C5_ignore_and_invalid_actions_witness :
    (add_fk_validation vCtx "s.child" (some ["a"]) (pyLower "Ignore")
      (none) [.bare "a"] (some "parent") (some ["a"])).isOk = true ∧
    add_fk_validation vCtx "s.child" none (pyLower "purge") none []
      none none =
      Except.error ("Invalid action on validation for table " ++ "s.child" ++
        ": " ++ pyLower "purge") := by
  have h := C5_ignore_and_invalid_actions vCtx "s.child" "parent" ["a"] ["a"]
    [.bare "a"] none none none [] none none (by decide) (by decide)
  refine ⟨?_, h.2.1 "purge" (by decide) (by decide)⟩
  rw [h.1 "Ignore" (by decide)]
  rfl

/-! ### Claim C1 — sloppy-mode guards (corrected) -/

theorem strContains_congr (s t pat : String) (h : s.data = t.data) :
    strContains s pat = strContains t pat := by
  simp [strContains, pyIndexOf, h]

/-- C1 counterexample: with sloppy mode disabled the compiled DDL of a
schema-bearing domain still contains an `IF NOT EXISTS` guard — the
`CREATE SCHEMA` statement carries it unconditionally, refuting "when
sloppy mode is disabled, no generated `CREATE TABLE` or `CREATE SCHEMA`
statement contains that guard". -/
theorem C1_sloppy_guard_counterexample :
    ctxNoSloppy.sloppy = false ∧
    (match init ctxNoSloppy with
     | .ok out => domainDdl out
     | .error _ => []) =
      ["CREATE SCHEMA IF NOT EXISTS s;",
       "CREATE TABLE  s.t (\n\tid VARCHAR,\n\tv INT,\n\tPRIMARY KEY (id)\n);"] ∧
    strContains "CREATE SCHEMA IF NOT EXISTS s;" "IF NOT EXISTS" = true := by
  refine ⟨rfl, by decide, by decide⟩

/-- C1 as amended: `create_table` (used for plain tables and spillover
audit tables) carries the `IF NOT EXISTS` guard exactly when sloppy mode
is on — with it off the flag slot is empty and, provided the table name
itself does not contain the guard text, the statement does not contain
it; but `CREATE SCHEMA` statements always carry the guard, sloppy or
not, and a table-from-view `CREATE TABLE … AS SELECT` never does (shown
on a concrete sloppy domain). -/
theorem C1_sloppy_guard (ctx : DomainSpec) (name : String) (out : InitOut) :
    (ctx.sloppy = true →
      strContains (create_table ctx name) "IF NOT EXISTS" = true) ∧
    (ctx.sloppy = false →
      create_table ctx name = "CREATE TABLE " ++ "" ++ " " ++ name) ∧
    (ctx.sloppy = false → strContains name "IF NOT EXISTS" = false →
      strContains (create_table ctx name) "IF NOT EXISTS" = false) ∧
    (init ctx = .ok out → ∀ s ∈ out.common,
      strContains s "IF NOT EXISTS" = true ∧
      pyStartsWith s "CREATE SCHEMA " = true) ∧
    (ctxTfv.sloppy = true ∧
      (match init ctxTfv with
       | .ok o => o.stmts
       | .error _ => []) =
        [("s.v0", "CREATE TABLE IF NOT EXISTS s.v0 (\n\ta VARCHAR\n);"),
         ("s.m", "CREATE TABLE s.m AS SELECT * FROM s.v0;\nALTER TABLE s.m ADD b VARCHAR;\n")] ∧
      strContains
        "CREATE TABLE s.m AS SELECT * FROM s.v0;\nALTER TABLE s.m ADD b VARCHAR;\n"
        "IF NOT EXISTS" = false) := by
  refine ⟨?_, ?_, ?_, ?_, by decide, by decide, by decide⟩
  · intro hs
    apply strContains_of_decomp _ _ "CREATE TABLE ".data (" " ++ name).data
    simp [create_table, hs, String.data_append]
  · intro hs
    simp [create_table, hs]
  · intro hs hn
    have hd : (create_table ctx name).data = ("CREATE TABLE  " ++ name).data := by
      simp [create_table, hs, String.data_append]
    rw [strContains_congr _ _ _ hd,
      strContains_fixed_prefix "CREATE TABLE  " name _ 'I' "F NOT EXISTS".data
        rfl (by decide)]
    exact hn
  · intro hinit s hs
    have hcommon : out.common = (match ctx.schema with
        | some sc => ["CREATE SCHEMA IF NOT EXISTS " ++ sc ++ ";"]
        | none => []) ++
        ctx.vars.filterMap (fun kv =>
          if pyStartsWith kv.1 "schema." then
            some ("CREATE SCHEMA IF NOT EXISTS " ++ kv.2 ++ ";")
          else none) := by
      unfold init at hinit
      cases hl : init_loop ctx ctx.tables ctx.tables with
      | error e => rw [hl] at hinit; exact absurd hinit (by simp [Except.bind])
      | ok v =>
        rw [hl] at hinit
        obtain ⟨tr, st, df⟩ := v
        simp [Except.bind] at hinit
        rw [← hinit]
    rw [hcommon] at hs
    have hshape : ∃ x : String, s = "CREATE SCHEMA IF NOT EXISTS " ++ x ++ ";" := by
      rcases List.mem_append.mp hs with h1 | h2
      · cases hsc : ctx.schema with
        | none => rw [hsc] at h1; cases h1
        | some sc =>
          rw [hsc] at h1
          rcases List.mem_singleton.mp h1 with rfl
          exact ⟨sc, rfl⟩
      · obtain ⟨kv, _, hkv⟩ := List.mem_filterMap.mp h2
        by_cases hb : pyStartsWith kv.1 "schema." = true
        · rw [if_pos hb] at hkv
          exact ⟨kv.2, (Option.some_inj.mp hkv).symm⟩
        · rw [if_neg hb] at hkv; cases hkv
    obtain ⟨x, rfl⟩ := hshape
    constructor
    · apply strContains_of_decomp _ _ "CREATE SCHEMA ".data
        (" ".data ++ x.data ++ ";".data)
      have : "CREATE SCHEMA IF NOT EXISTS ".data =
          "CREATE SCHEMA ".data ++ ("IF NOT EXISTS".data ++ " ".data) := by decide
      simp [String.data_append, this]
    · apply pyStartsWith_append_of_prefix ("CREATE SCHEMA IF NOT EXISTS " ++ x) ";"
      apply List.isPrefixOf_iff_prefix.mpr
      rw [String.data_append]
      have : "CREATE SCHEMA ".data <+: "CREATE SCHEMA IF NOT EXISTS ".data := by
        decide
      exact this.trans (List.prefix_append _ _)

/-! ### Claim C2 — child foreign keys -/

theorem exc_bind_eq_match {ε α β : Type} (x : Except ε α) (f : α → Except ε β) :
    (x >>= f) = (match x with
      | .ok a => f a
      | .error e => .error e) := by
  cases x <;> rfl

theorem strContains_of_mem_joinSep (pre sep post x : String) (l : List String)
    (h : x ∈ l) :
    strContains (pre ++ joinSep sep l ++ post) x = true := by
  obtain ⟨a, b, hab⟩ := joinSep_mem_decomp sep x l h
  apply strContains_of_decomp _ _ (pre.data ++ a) (b ++ post.data)
  simp [String.data_append, hab]

/-- C2: a child table (plain `CREATE TABLE` case) whose parent declares a
primary key compiles to a first statement, tagged with the child's
qualified name, containing the `FOREIGN KEY` clause whose column list is
the parent's `primary_key` (same columns, same order, on both sides) and
whose referenced table is the parent's fully-qualified name. -/
theorem C2_child_foreign_key (ctx : DomainSpec) (tree : Tables) (name pt : String)
    (td pdef : TableDef) (pkc : List String) (out : NodeOut)
    (hcreate : td.create = none)
    (hpk : pdef.primary_key = some pkc)
    (hrun : ddlForNodeOwn ctx tree name td (some (pt, pdef)) = Except.ok out) :
    ∃ stmt rest, out.stmts = (fqn ctx name, stmt) :: rest ∧
      strContains stmt ("CONSTRAINT " ++ name ++ "_to_" ++ pt ++
        " FOREIGN KEY (" ++ joinSep ", " pkc ++ ") REFERENCES " ++
        fqn ctx pt ++ " (" ++ joinSep ", " pkc ++ ")") = true := by
  simp only [ddlForNodeOwn, hcreate, hpk, exc_bind_eq_match, Bool.false_eq_true,
    if_false, ne_eq, reduceCtorEq, not_false_eq_true, if_true] at hrun
  split at hrun <;> try exact Except.noConfusion hrun
  all_goals try (split at hrun <;> try exact Except.noConfusion hrun)
  all_goals try (split at hrun <;> try exact Except.noConfusion hrun)
  all_goals try (split at hrun <;> try exact Except.noConfusion hrun)
  all_goals try (split at hrun <;> try exact Except.noConfusion hrun)
  all_goals try (split at hrun <;> try exact Except.noConfusion hrun)
  all_goals (
    injection hrun with h
    subst h
    refine ⟨_, _, rfl, ?_⟩
    simp only [create_true_table]
    apply strContains_of_mem_joinSep
    exact List.mem_append_right _ (List.mem_singleton_self _))

/-- Witness for C2: the concrete `parent`/`child` domain, whose child
statement carries `CONSTRAINT child_to_parent FOREIGN KEY (id)
REFERENCES s.parent (id)`. -/
theorem C2_child_foreign_key_witness :
    ∃ out, ddlForNodeOwn ctxParentChild ctxParentChild.tables "child"
      (.mk [.bare "other"] none [] none [] none)
      (some ("parent", .mk [.bare "id"] (some ["id"])
        [("child", .mk [.bare "other"] none [] none [] none)] none [] none)) =
      Except.ok out ∧
    ∃ stmt rest, out.stmts = (fqn ctxParentChild "child", stmt) :: rest ∧
      strContains stmt ("CONSTRAINT " ++ "child" ++ "_to_" ++ "parent" ++
        " FOREIGN KEY (" ++ joinSep ", " ["id"] ++ ") REFERENCES " ++
        fqn ctxParentChild "parent" ++ " (" ++ joinSep ", " ["id"] ++ ")") =
        true := by
  cases hrun : ddlForNodeOwn ctxParentChild ctxParentChild.tables "child"
      (.mk [.bare "other"] none [] none [] none)
      (some ("parent", .mk [.bare "id"] (some ["id"])
        [("child", .mk [.bare "other"] none [] none [] none)] none [] none)) with
  | error e =>
    have hok : (ddlForNodeOwn ctxParentChild ctxParentChild.tables "child"
      (.mk [.bare "other"] none [] none [] none)
      (some ("parent", .mk [.bare "id"] (some ["id"])
        [("child", .mk [.bare "other"] none [] none [] none)] none []
        none))).isOk = true := by decide
    rw [hrun] at hok
    exact absurd hok (by simp [Except.isOk, Except.toBool])
  | ok out =>
    exact ⟨out, rfl,
      C2_child_foreign_key ctxParentChild ctxParentChild.tables "child" "parent"
        (.mk [.bare "other"] none [] none [] none)
        (.mk [.bare "id"] (some ["id"])
          [("child", .mk [.bare "other"] none [] none [] none)] none [] none)
        ["id"] out rfl rfl hrun⟩

/-- Witness for C1 at a sloppy and a strict compiler state. -/
theorem C1_sloppy_guard_witness :
    strContains (create_table { vCtx with sloppy := true } "s.t")
      "IF NOT EXISTS" = true ∧
    strContains (create_table vCtx "s.t") "IF NOT EXISTS" = false ∧
    (∀ s ∈ (match init ctxNoSloppy with
      | .ok out => out
      | .error _ => ⟨[], [], [], []⟩ : InitOut).common,
      strContains s "IF NOT EXISTS" = true ∧
      pyStartsWith s "CREATE SCHEMA " = true) := by
  refine ⟨(C1_sloppy_guard { vCtx with sloppy := true } "s.t"
      ⟨[], [], [], []⟩).1 rfl,
    (C1_sloppy_guard vCtx "s.t" ⟨[], [], [], []⟩).2.2.1 rfl (by decide), ?_⟩
  cases hinit : init ctxNoSloppy with
  | error e =>
    have hok : (init ctxNoSloppy).isOk = true := by decide
    rw [hinit] at hok
    exact absurd hok (by simp [Except.isOk, Except.toBool])
  | ok out =>
    have h := (C1_sloppy_guard ctxNoSloppy "s.t" out).2.2.2.1 hinit
    simpa [hinit] using h

/-! ### Claim C3 — compilation's mutations of the spec tree (corrected) -/

/-- C3 counterexample: compiling the concrete `parent`/`child` domain
appends the inherited foreign-key column `id` to the child's `columns`
list in the spec tree, so compilation does modify a table definition's
columns. -/
theorem C3_frame_counterexample :
    (match init ctxParentChild with
     | .ok out =>
       (match findT out.tree "child" with
        | some td => td.columns
        | none => [])
     | .error _ => []) = [.bare "other", .bare "id"] ∧
    (match findT ctxParentChild.tables "child" with
     | some td => td.columns
     | none => []) = [.bare "other"] ∧
    ([Column.bare "other", Column.bare "id"] = [Column.bare "other"]) = False
    := by
  refine ⟨by decide, by decide, by decide⟩

theorem noCreateT_parts {td : TableDef} (h : noCreateT td = true) :
    td.create = none ∧ noCreateL td.children = true := by
  cases td with
  | mk c p ch cr i ir =>
    cases cr with
    | none => exact ⟨rfl, by simpa [noCreateT] using h⟩
    | some v => simp [noCreateT] at h

/-- On a single `create`-free node, compilation returns the definition
with only its `columns` list extended. -/
theorem ddlForNodeOwn_frame (ctx : DomainSpec) (tree : Tables) (nm : String)
    (td : TableDef) (parent : Option (String × TableDef)) (o : NodeOut)
    (hc : td.create = none)
    (hrun : ddlForNodeOwn ctx tree nm td parent = Except.ok o) :
    ∃ inj, o.updated = td.setColumns (td.columns ++ inj) := by
  simp only [ddlForNodeOwn, hc, exc_bind_eq_match, Bool.false_eq_true,
    if_false, ne_eq, reduceCtorEq, not_false_eq_true, if_true] at hrun
  split at hrun <;> try exact Except.noConfusion hrun
  all_goals try (split at hrun <;> try exact Except.noConfusion hrun)
  all_goals try (split at hrun <;> try exact Except.noConfusion hrun)
  all_goals try (split at hrun <;> try exact Except.noConfusion hrun)
  all_goals try (split at hrun <;> try exact Except.noConfusion hrun)
  all_goals try (split at hrun <;> try exact Except.noConfusion hrun)
  all_goals try (split at hrun <;> try exact Except.noConfusion hrun)
  all_goals try (split at hrun <;> try exact Except.noConfusion hrun)
  all_goals try (split at hrun <;> try exact Except.noConfusion hrun)
  all_goals (
    injection hrun with h
    subst h
    first
    | exact ⟨_, rfl⟩
    | exact ⟨[], by simp⟩)

/-- The frame property, by strong induction on the size of the subtree:
compiling a `create`-free node returns a definition related to the
original by `frameOkT`, and likewise pointwise for children lists. -/
theorem frame_aux : ∀ n : Nat,
    (∀ (ctx : DomainSpec) (tree : Tables) (path : List String) (nm : String)
      (td : TableDef) (parent : Option (String × TableDef)) tr td' st df,
      sizeOf td ≤ n → noCreateT td = true →
      ddl_for_node ctx tree path nm td parent = Except.ok (tr, td', st, df) →
      frameOkT td td' = true) ∧
    (∀ (ctx : DomainSpec) (tree : Tables) (path : List String)
      (ch : List (String × TableDef)) (pname : String) (pdef : TableDef)
      tr ch' st df,
      sizeOf ch ≤ n → noCreateL ch = true →
      ddl_for_children ctx tree path ch pname pdef =
        Except.ok (tr, ch', st, df) →
      frameOkL ch ch' = true) := by
  intro n
  induction n with
  | zero =>
    constructor
    · intro ctx tree path nm td parent tr td' st df hsz _ _
      cases td with
      | mk c p ch cr i ir => simp [TableDef.mk.sizeOf_spec] at hsz
    · intro ctx tree path ch pname pdef tr ch' st df hsz _ _
      cases ch with
      | nil => simp at hsz
      | cons x rest => simp [List.cons.sizeOf_spec] at hsz
  | succ m ih =>
    obtain ⟨ihN, ihC⟩ := ih
    constructor
    · intro ctx tree path nm td parent tr td' st df hsz hnc hrun
      cases td with
      | mk c p ch cr i ir =>
        obtain ⟨hcr, hch⟩ := noCreateT_parts hnc
        simp only [ddl_for_node, exc_bind_eq_match] at hrun
        split at hrun <;> try exact Except.noConfusion hrun
        rename_i own hown
        split at hrun <;> try exact Except.noConfusion hrun
        rename_i res hres
        obtain ⟨tr2, ch2, cst, cdf⟩ := res
        obtain ⟨hinj1, hinj2, hinj3, hinj4⟩ :
            updateTables tree (path ++ [nm]) (own.updated.setChildren ch2) =
              tr ∧ own.updated.setChildren ch2 = td' ∧
            own.stmts ++ cst = st ∧ own.deferred ++ cdf = df := by
          simpa using hrun
        obtain ⟨inj, hupd⟩ := ddlForNodeOwn_frame ctx tree nm
          (.mk c p ch cr i ir) parent own hcr hown
        have hszc : sizeOf ch ≤ m := by
          simp [TableDef.mk.sizeOf_spec] at hsz; omega
        have hfr := ihC ctx _ _ ch nm own.updated tr2 ch2 cst cdf hszc
          (by simpa [TableDef.children] using hch) hres
        subst hinj2
        rw [hupd]
        simp only [TableDef.setColumns, TableDef.setChildren, frameOkT]
        simp [TableDef.columns, List.isPrefixOf_iff_prefix, List.prefix_append,
          hfr]
    · intro ctx tree path ch pname pdef tr ch' st df hsz hnc hrun
      cases ch with
      | nil =>
        simp only [ddl_for_children] at hrun
        obtain ⟨h1, h2, h3, h4⟩ :
            tree = tr ∧ [] = ch' ∧ [] = st ∧ [] = df := by simpa using hrun
        rw [← h2]
        rfl
      | cons x rest =>
        obtain ⟨cname, cd⟩ := x
        have hparts := hnc
        simp only [noCreateL, Bool.and_eq_true] at hparts
        simp only [ddl_for_children, exc_bind_eq_match] at hrun
        split at hrun <;> try exact Except.noConfusion hrun
        rename_i res1 hres1
        obtain ⟨tr1, cd2, s1, d1⟩ := res1
        split at hrun <;> try exact Except.noConfusion hrun
        rename_i res2 hres2
        obtain ⟨tr2, rest2, s2, d2⟩ := res2
        obtain ⟨h1, h2, h3, h4⟩ :
            tr2 = tr ∧ (cname, cd2) :: rest2 = ch' ∧
            s1 ++ s2 = st ∧ d1 ++ d2 = df := by simpa using hrun
        have hszcd : sizeOf cd ≤ m := by
          simp [List.cons.sizeOf_spec, Prod.mk.sizeOf_spec] at hsz; omega
        have hszr : sizeOf rest ≤ m := by
          simp [List.cons.sizeOf_spec] at hsz; omega
        have hf1 := ihN ctx tree path cname cd (some (pname, pdef)) tr1 cd2
          s1 d1 hszcd hparts.1 hres1
        have hf2 := ihC ctx tr1 path rest pname pdef tr2 rest2 s2 d2 hszr
          hparts.2 hres2
        rw [← h2]
        simp [frameOkL, hf1, hf2]

theorem frame_refl_aux : ∀ n : Nat,
    (∀ td : TableDef, sizeOf td ≤ n → frameOkT td td = true) ∧
    (∀ ts : Tables, sizeOf ts ≤ n → frameOkL ts ts = true) := by
  intro n
  induction n with
  | zero =>
    constructor
    · intro td hsz
      cases td with
      | mk c p ch cr i ir => simp [TableDef.mk.sizeOf_spec] at hsz
    · intro ts hsz
      cases ts with
      | nil => rfl
      | cons x rest => simp [List.cons.sizeOf_spec] at hsz
  | succ m ih =>
    obtain ⟨ihN, ihC⟩ := ih
    constructor
    · intro td hsz
      cases td with
      | mk c p ch cr i ir =>
        have : sizeOf ch ≤ m := by
          simp [TableDef.mk.sizeOf_spec] at hsz; omega
        simp [frameOkT, List.isPrefixOf_iff_prefix, ihC ch this]
    · intro ts hsz
      cases ts with
      | nil => rfl
      | cons x rest =>
        obtain ⟨nm, td⟩ := x
        have h1 : sizeOf td ≤ m := by
          simp [List.cons.sizeOf_spec, Prod.mk.sizeOf_spec] at hsz; omega
        have h2 : sizeOf rest ≤ m := by
          simp [List.cons.sizeOf_spec] at hsz; omega
        simp [frameOkL, ihN td h1, ihC rest h2]

theorem frameOkL_names {base tree : Tables} (h : frameOkL base tree = true) :
    tree.map Prod.fst = base.map Prod.fst := by
  induction base generalizing tree with
  | nil =>
    cases tree with
    | nil => rfl
    | cons t ts => simp [frameOkL] at h
  | cons b bs ih =>
    cases tree with
    | nil => simp [frameOkL] at h
    | cons t ts =>
      obtain ⟨bn, bd⟩ := b
      obtain ⟨tn, tdv⟩ := t
      simp only [frameOkL, Bool.and_eq_true, decide_eq_true_eq] at h
      obtain ⟨⟨hn, _⟩, ht⟩ := h
      simp [hn, ih ht]

theorem updateTables_map_eq (ts : Tables) (n : String) (v : TableDef)
    (h : ∀ kv ∈ ts, kv.1 ≠ n) :
    ts.map (fun kv => if kv.1 = n then (kv.1, v) else kv) = ts := by
  induction ts with
  | nil => rfl
  | cons kv rest ih =>
    have h1 : kv.1 ≠ n := h kv (List.mem_cons_self kv rest)
    simp [h1, ih (fun x hx => h x (List.mem_cons_of_mem kv hx))]

theorem frameOkL_update (base : Tables) (n : String) (td v : TableDef)
    (hnd : (base.map Prod.fst).Nodup) :
    ∀ tree : Tables, frameOkL base tree = true →
    alookup base n = some td → frameOkT td v = true →
    frameOkL base (updateTables tree [n] v) = true := by
  induction base with
  | nil =>
    intro tree _ hmem _
    exact absurd hmem (by simp [alookup])
  | cons b bs ih =>
    intro tree hf hmem hv
    obtain ⟨bn, bd⟩ := b
    cases tree with
    | nil => simp [frameOkL] at hf
    | cons t ts =>
      obtain ⟨tn, tdv⟩ := t
      simp only [frameOkL, Bool.and_eq_true, decide_eq_true_eq] at hf
      obtain ⟨⟨hn, hfh⟩, hft⟩ := hf
      simp only [updateTables, List.map_cons]
      simp only [List.map_cons, List.nodup_cons] at hnd
      by_cases he : tn = n
      · have hbn : bn = n := hn ▸ he
        have htd : td = bd := by
          rw [alookup, if_pos hbn] at hmem
          exact (Option.some_inj.mp hmem).symm
        have hnone : ∀ kv ∈ ts, kv.1 ≠ n := by
          intro kv hkv
          have : kv.1 ∈ bs.map Prod.fst := by
            rw [← frameOkL_names hft]
            exact List.mem_map_of_mem Prod.fst hkv
          intro he2
          exact hnd.1 (by rw [hbn, ← he2]; exact this)
        rw [if_pos he, updateTables_map_eq ts n v hnone]
        simp [frameOkL, hn, htd ▸ hv, hft]
      · have hbn : bn ≠ n := hn ▸ he
        rw [if_neg he]
        have hmem2 : alookup bs n = some td := by
          rwa [alookup, if_neg hbn] at hmem
        have hrec := ih hnd.2 ts hft hmem2 hv
        simp only [updateTables] at hrec
        simp [frameOkL, hn, hfh, hrec]

theorem alookup_of_mem_nodup {l : List (String × TableDef)} {n : String}
    {td : TableDef} (hnd : (l.map Prod.fst).Nodup) (hmem : (n, td) ∈ l) :
    alookup l n = some td := by
  induction l with
  | nil => cases hmem
  | cons kv rest ih =>
    obtain ⟨kn, kd⟩ := kv
    simp only [List.map_cons, List.nodup_cons] at hnd
    cases hmem with
    | head => simp [alookup]
    | tail _ hm =>
      have hne : kn ≠ n := by
        intro he
        exact hnd.1 (he ▸ List.mem_map_of_mem Prod.fst hm)
      rw [alookup, if_neg hne]
      exact ih hnd.2 hm

theorem noCreateT_of_mem {l : Tables} {kv : String × TableDef}
    (h : noCreateL l = true) (hmem : kv ∈ l) : noCreateT kv.2 = true := by
  induction l with
  | nil => cases hmem
  | cons x rest ih =>
    obtain ⟨xn, xd⟩ := x
    simp only [noCreateL, Bool.and_eq_true] at h
    cases hmem with
    | head => exact h.1
    | tail _ hm => exact ih h.2 hm

/-- C3 as amended: compilation is not mutation-free on the spec tree —
the counterexample shows a child's `columns` list gains the inherited
foreign-key column — but for domains without `create` clauses (so no
view primary-key back-fill and no table-from-view column replacement
applies) that is the only kind of mutation: after `init` every table
definition in the tree keeps its `primary_key`, `create`, `indices`,
`invalid.records` and its children keys and order, and only `columns`
lists may grow by appended entries (`frameOkL`). -/
theorem C3_compilation_frame (ctx : DomainSpec) (out : InitOut)
    (hnc : noCreateL ctx.tables = true)
    (hnd : (ctx.tables.map Prod.fst).Nodup)
    (hrun : init ctx = Except.ok out) :
    frameOkL ctx.tables out.tree = true := by
  have hloop : ∀ (todo : List (String × TableDef)) (tree : Tables) tr st df,
      frameOkL ctx.tables tree = true →
      (∀ kv ∈ todo, (kv.1, kv.2) ∈ ctx.tables) →
      init_loop ctx tree todo = Except.ok (tr, st, df) →
      frameOkL ctx.tables tr = true := by
    intro todo
    induction todo with
    | nil =>
      intro tree tr st df hbase _ hl
      obtain ⟨h1, _, _⟩ : tree = tr ∧ ([] : List (String × String)) = st ∧
          ([] : List (String × String)) = df := by
        simpa [init_loop] using hl
      exact h1 ▸ hbase
    | cons kv rest ih =>
      intro tree tr st df hbase hmem hl
      obtain ⟨n, td⟩ := kv
      simp only [init_loop, exc_bind_eq_match] at hl
      split at hl <;> try exact Except.noConfusion hl
      rename_i res1 hres1
      obtain ⟨tr1, td1, s1, d1⟩ := res1
      split at hl <;> try exact Except.noConfusion hl
      rename_i res2 hres2
      obtain ⟨tr2, s2, d2⟩ := res2
      obtain ⟨h1, h2, h3⟩ : tr2 = tr ∧ s1 ++ s2 = st ∧ d1 ++ d2 = df := by
        simpa using hl
      have hmemh : (n, td) ∈ ctx.tables := hmem (n, td) (List.mem_cons_self _ _)
      have hnct : noCreateT td = true := noCreateT_of_mem hnc hmemh
      have hfr : frameOkT td td1 = true :=
        (frame_aux (sizeOf td)).1 ctx tree [] n td none tr1 td1 s1 d1
          (le_refl _) hnct hres1
      have htr1 : frameOkL ctx.tables tr1 = true := by
        have hshape : tr1 = updateTables tree [n] td1 := by
          cases td with
          | mk c p ch cr i ir =>
            simp only [ddl_for_node, exc_bind_eq_match] at hres1
            split at hres1 <;> try exact Except.noConfusion hres1
            rename_i own hown
            split at hres1 <;> try exact Except.noConfusion hres1
            rename_i res hres
            obtain ⟨trx, ch2, cstx, cdfx⟩ := res
            obtain ⟨g1, g2, g3, g4⟩ :
                updateTables tree ([] ++ [n]) (own.updated.setChildren ch2) =
                  tr1 ∧ own.updated.setChildren ch2 = td1 ∧
                own.stmts ++ cstx = s1 ∧ own.deferred ++ cdfx = d1 := by
              simpa using hres1
            rw [← g1, g2]
            simp
        rw [hshape]
        exact frameOkL_update ctx.tables n td td1 hnd tree hbase
          (alookup_of_mem_nodup hnd hmemh) hfr
      exact ih tr1 tr s2 d2 htr1
        (fun x hx => hmem x (List.mem_cons_of_mem _ hx)) (h1 ▸ hres2)
  have hinit : ∃ tr st df, init_loop ctx ctx.tables ctx.tables =
      Except.ok (tr, st, df) ∧ out.tree = tr := by
    simp only [init, exc_bind_eq_match] at hrun
    split at hrun <;> try exact Except.noConfusion hrun
    rename_i res hres
    obtain ⟨tr, st, df⟩ := res
    refine ⟨tr, st, df, hres, ?_⟩
    have h5 := Except.ok.inj hrun
    exact (congrArg InitOut.tree h5).symm
  obtain ⟨tr, st, df, hl, hout⟩ := hinit
  rw [hout]
  exact hloop ctx.tables ctx.tables tr st df
    ((frame_refl_aux (sizeOf ctx.tables)).2 ctx.tables (le_refl _))
    (fun kv _ => by simpa) hl

/-- Witness for C3 on the concrete `parent`/`child` domain. -/
theorem C3_compilation_frame_witness :
    noCreateL ctxParentChild.tables = true ∧
    (match init ctxParentChild with
     | .ok out => frameOkL ctxParentChild.tables out.tree
     | .error _ => false) = true := by
  refine ⟨by decide, ?_⟩
  cases hinit : init ctxParentChild with
  | error e =>
    have hok : (init ctxParentChild).isOk = true := by decide
    rw [hinit] at hok
    exact absurd hok (by simp [Except.isOk, Except.toBool])
  | ok out =>
    exact C3_compilation_frame ctxParentChild out (by decide) (by decide) hinit

/-! ### Claim C9 — statement ordering -/

theorem fqn_inj (ctx : DomainSpec) {a b : String}
    (h : fqn ctx a = fqn ctx b) : a = b := by
  cases hs : ctx.schema with
  | none => simpa [fqn, hs] using h
  | some sc =>
    rw [fqn, fqn, hs] at h
    have hd := congrArg String.data h
    simp only [String.data_append] at hd
    exact String.ext (List.append_cancel_left hd)

theorem tagsOf_append (a b : List (String × String)) :
    tagsOf (a ++ b) = tagsOf a ++ tagsOf b := List.map_append _ _ _

theorem notMem_tags_of_subset {st : List (String × String)}
    {names : List String} {a : String}
    (hsub : ∀ e ∈ st, e.1 ∈ names) (ha : a ∉ names) : a ∉ tagsOf st := by
  intro hmem
  obtain ⟨e, he, he2⟩ := List.mem_map.mp hmem
  exact ha (he2 ▸ hsub e he)

theorem fqn_notMem_map (ctx : DomainSpec) {a : String} {l : List String}
    (h : a ∉ l) : fqn ctx a ∉ l.map (fqn ctx) := by
  intro hm
  obtain ⟨b, hb, he⟩ := List.mem_map.mp hm
  exact h ((fqn_inj ctx he) ▸ hb)

theorem SplitBefore_get {l : List (String × String)} {a b : String}
    (h : SplitBefore l a b) :
    ∀ i j (hi : i < l.length) (hj : j < l.length),
      (l.get ⟨i, hi⟩).1 = a → (l.get ⟨j, hj⟩).1 = b → i < j := by
  obtain ⟨l1, l2, rfl, ha, hb⟩ := h
  intro i j hi hj hia hjb
  have hib : i < l1.length := by
    by_contra hge
    push_neg at hge
    have hmem : (l1 ++ l2).get ⟨i, hi⟩ ∈ l2 := by
      rw [List.get_eq_getElem, List.getElem_append_right hge]
      exact List.getElem_mem _
    exact ha (hia ▸ List.mem_map_of_mem Prod.fst hmem)
  have hjb2 : l1.length ≤ j := by
    by_contra hlt
    push_neg at hlt
    have hmem : (l1 ++ l2).get ⟨j, hj⟩ ∈ l1 := by
      rw [List.get_eq_getElem, List.getElem_append_left hlt]
      exact List.getElem_mem _
    exact hb (hjb ▸ List.mem_map_of_mem Prod.fst hmem)
  omega

theorem key_mem_childrenBasenames {ch : Tables} {kv : String × TableDef}
    (h : kv ∈ ch) : kv.1 ∈ childrenBasenames ch := by
  induction ch with
  | nil => cases h
  | cons x rest ih =>
    obtain ⟨xn, xd⟩ := x
    cases h with
    | head => exact List.mem_cons_self _ _
    | tail _ hm =>
      simp only [childrenBasenames]
      exact List.mem_cons_of_mem _ (List.mem_append_right _ (ih hm))

theorem pairs_names_aux : ∀ n : Nat,
    (∀ (nm : String) (td : TableDef) (pc : String × String),
      sizeOf td ≤ n → pc ∈ pairsOf nm td →
      pc.1 ∈ nm :: subtreeBasenames td ∧ pc.2 ∈ subtreeBasenames td) ∧
    (∀ (ts : Tables) (pc : String × String),
      sizeOf ts ≤ n → pc ∈ pairsList ts →
      pc.1 ∈ childrenBasenames ts ∧ pc.2 ∈ childrenBasenames ts) := by
  intro n
  induction n with
  | zero =>
    constructor
    · intro nm td pc hsz _
      cases td with
      | mk c p ch cr i ir => simp [TableDef.mk.sizeOf_spec] at hsz
    · intro ts pc hsz hmem
      cases ts with
      | nil => cases hmem
      | cons x rest => simp [List.cons.sizeOf_spec] at hsz
  | succ m ih =>
    obtain ⟨ihN, ihC⟩ := ih
    constructor
    · intro nm td pc hsz hmem
      cases td with
      | mk c p ch cr i ir =>
        have hszc : sizeOf ch ≤ m := by
          simp [TableDef.mk.sizeOf_spec] at hsz; omega
        simp only [pairsOf] at hmem
        rcases List.mem_append.mp hmem with h1 | h2
        · obtain ⟨kv, hkv, he⟩ := List.mem_map.mp h1
          constructor
          · rw [← he]; exact List.mem_cons_self _ _
          · rw [← he]
            exact key_mem_childrenBasenames hkv
        · obtain ⟨hp, hc⟩ := ihC ch pc hszc h2
          exact ⟨List.mem_cons_of_mem _ hp, hc⟩
    · intro ts pc hsz hmem
      cases ts with
      | nil => cases hmem
      | cons x rest =>
        obtain ⟨xn, xd⟩ := x
        have hszd : sizeOf xd ≤ m := by
          simp [List.cons.sizeOf_spec, Prod.mk.sizeOf_spec] at hsz; omega
        have hszr : sizeOf rest ≤ m := by
          simp [List.cons.sizeOf_spec] at hsz; omega
        simp only [pairsList] at hmem
        simp only [childrenBasenames]
        rcases List.mem_append.mp hmem with h1 | h2
        · obtain ⟨hp, hc⟩ := ihN xn xd pc hszd h1
          constructor
          · rcases List.mem_cons.mp hp with he | hin
            · exact he ▸ List.mem_cons_self _ _
            · exact List.mem_cons_of_mem _ (List.mem_append_left _ hin)
          · exact List.mem_cons_of_mem _ (List.mem_append_left _ hc)
        · obtain ⟨hp, hc⟩ := ihC rest pc hszr h2
          exact ⟨List.mem_cons_of_mem _ (List.mem_append_right _ hp),
            List.mem_cons_of_mem _ (List.mem_append_right _ hc)⟩

set_option maxHeartbeats 2000000 in
/-- Every statement a single node emits (before its children) is tagged
with that node's qualified name. -/
theorem ddlForNodeOwn_tags (ctx : DomainSpec) (tree : Tables) (nm : String)
    (td : TableDef) (parent : Option (String × TableDef)) (o : NodeOut)
    (hrun : ddlForNodeOwn ctx tree nm td parent = Except.ok o) :
    ∀ e ∈ o.stmts, e.1 = fqn ctx nm := by
  simp only [ddlForNodeOwn, exc_bind_eq_match] at hrun
  split at hrun <;> try exact Except.noConfusion hrun
  all_goals try (split at hrun <;> try exact Except.noConfusion hrun)
  all_goals try (split at hrun <;> try exact Except.noConfusion hrun)
  all_goals try (split at hrun <;> try exact Except.noConfusion hrun)
  all_goals try (split at hrun <;> try exact Except.noConfusion hrun)
  all_goals try (split at hrun <;> try exact Except.noConfusion hrun)
  all_goals try (split at hrun <;> try exact Except.noConfusion hrun)
  all_goals try (split at hrun <;> try exact Except.noConfusion hrun)
  all_goals try (split at hrun <;> try exact Except.noConfusion hrun)
  all_goals try (split at hrun <;> try exact Except.noConfusion hrun)
  all_goals try (split at hrun <;> try exact Except.noConfusion hrun)
  all_goals try (split at hrun <;> try exact Except.noConfusion hrun)
  all_goals try (split at hrun <;> try exact Except.noConfusion hrun)
  all_goals try (split at hrun <;> try exact Except.noConfusion hrun)
  all_goals (
    injection hrun with h
    subst h
    intro e he
    obtain ⟨x, _, he2⟩ := List.mem_map.mp he
    rw [← he2])

theorem C9_aux : ∀ n : Nat,
    (∀ (ctx : DomainSpec) (tree : Tables) (path : List String) (nm : String)
      (td : TableDef) (parent : Option (String × TableDef)) tr td' st df,
      sizeOf td ≤ n →
      ddl_for_node ctx tree path nm td parent = Except.ok (tr, td', st, df) →
      (∀ e ∈ st, e.1 ∈ (nm :: subtreeBasenames td).map (fqn ctx)) ∧
      ((nm :: subtreeBasenames td).Nodup →
        ∀ pc ∈ pairsOf nm td, SplitBefore st (fqn ctx pc.1) (fqn ctx pc.2))) ∧
    (∀ (ctx : DomainSpec) (tree : Tables) (path : List String)
      (ch : Tables) (pname : String) (pdef : TableDef) tr ch' st df,
      sizeOf ch ≤ n →
      ddl_for_children ctx tree path ch pname pdef =
        Except.ok (tr, ch', st, df) →
      (∀ e ∈ st, e.1 ∈ (childrenBasenames ch).map (fqn ctx)) ∧
      ((childrenBasenames ch).Nodup →
        ∀ pc ∈ pairsList ch, SplitBefore st (fqn ctx pc.1) (fqn ctx pc.2)))
    := by
  intro n
  induction n with
  | zero =>
    constructor
    · intro ctx tree path nm td parent tr td' st df hsz _
      cases td with
      | mk c p ch cr i ir => simp [TableDef.mk.sizeOf_spec] at hsz
    · intro ctx tree path ch pname pdef tr ch' st df hsz hmem
      cases ch with
      | nil =>
        obtain ⟨h1, h2, h3, h4⟩ :
            tree = tr ∧ ([] : Tables) = ch' ∧
            ([] : List (String × String)) = st ∧
            ([] : List (String × String)) = df := by
          simpa [ddl_for_children] using hmem
        constructor
        · intro e he; rw [← h3] at he; cases he
        · intro _ pc hpc; cases hpc
      | cons x rest => simp [List.cons.sizeOf_spec] at hsz
  | succ m ih =>
    obtain ⟨ihN, ihC⟩ := ih
    constructor
    · intro ctx tree path nm td parent tr td' st df hsz hrun
      cases td with
      | mk c p ch cr i ir =>
        have hszc : sizeOf ch ≤ m := by
          simp [TableDef.mk.sizeOf_spec] at hsz; omega
        simp only [ddl_for_node, exc_bind_eq_match] at hrun
        split at hrun <;> try exact Except.noConfusion hrun
        rename_i own hown
        split at hrun <;> try exact Except.noConfusion hrun
        rename_i res hres
        obtain ⟨tr2, ch2, cst, cdf⟩ := res
        obtain ⟨g1, g2, g3, g4⟩ :
            updateTables tree (path ++ [nm]) (own.updated.setChildren ch2) =
              tr ∧ own.updated.setChildren ch2 = td' ∧
            own.stmts ++ cst = st ∧ own.deferred ++ cdf = df := by
          simpa using hrun
        have htags_own := ddlForNodeOwn_tags ctx tree nm
          (.mk c p ch cr i ir) parent own hown
        obtain ⟨htagsC, hpairsC⟩ := ihC ctx _ _ ch nm own.updated tr2 ch2
          cst cdf hszc hres
        rw [← g3]
        have hsub : subtreeBasenames (TableDef.mk c p ch cr i ir) =
            childrenBasenames ch := rfl
        constructor
        · intro e he
          rcases List.mem_append.mp he with h1 | h2
          · rw [htags_own e h1]
            exact List.mem_map_of_mem _ (List.mem_cons_self _ _)
          · rw [hsub, List.map_cons]
            exact List.mem_cons_of_mem _ (htagsC e h2)
        · intro hnd pc hpc
          rw [hsub] at hnd
          have hnd1 : nm ∉ childrenBasenames ch := (List.nodup_cons.mp hnd).1
          have hnd2 : (childrenBasenames ch).Nodup :=
            (List.nodup_cons.mp hnd).2
          simp only [pairsOf] at hpc
          rcases List.mem_append.mp hpc with h1 | h2
          · obtain ⟨kv, hkv, he⟩ := List.mem_map.mp h1
            refine ⟨own.stmts, cst, rfl, ?_, ?_⟩
            · rw [← he]
              exact notMem_tags_of_subset htagsC (fqn_notMem_map ctx hnd1)
            · rw [← he]
              intro hmem2
              obtain ⟨e, he2, he3⟩ := List.mem_map.mp hmem2
              have hkv1 : kv.1 = nm :=
                fqn_inj ctx (he3.symm.trans (htags_own e he2))
              exact hnd1 (hkv1 ▸ key_mem_childrenBasenames hkv)
          · obtain ⟨l1, l2, hl, ha, hb⟩ := hpairsC hnd2 pc h2
            refine ⟨own.stmts ++ l1, l2, by rw [hl, List.append_assoc], ha, ?_⟩
            rw [tagsOf_append]
            intro hmem2
            rcases List.mem_append.mp hmem2 with hx | hx
            · obtain ⟨e, he2, he3⟩ := List.mem_map.mp hx
              have hc2 : (pc.2 : String) = nm :=
                fqn_inj ctx (he3.symm.trans (htags_own e he2))
              have := (pairs_names_aux (sizeOf ch)).2 ch pc (le_refl _) h2
              exact hnd1 (hc2 ▸ this.2)
            · exact hb hx
    · intro ctx tree path ch pname pdef tr ch' st df hsz hrun
      cases ch with
      | nil =>
        obtain ⟨h1, h2, h3, h4⟩ :
            tree = tr ∧ ([] : Tables) = ch' ∧
            ([] : List (String × String)) = st ∧
            ([] : List (String × String)) = df := by
          simpa [ddl_for_children] using hrun
        constructor
        · intro e he; rw [← h3] at he; cases he
        · intro _ pc hpc; cases hpc
      | cons x rest =>
        obtain ⟨c0, cd0⟩ := x
        have hszd : sizeOf cd0 ≤ m := by
          simp [List.cons.sizeOf_spec, Prod.mk.sizeOf_spec] at hsz; omega
        have hszr : sizeOf rest ≤ m := by
          simp [List.cons.sizeOf_spec] at hsz; omega
        simp only [ddl_for_children, exc_bind_eq_match] at hrun
        split at hrun <;> try exact Except.noConfusion hrun
        rename_i res1 hres1
        obtain ⟨tr1, cd2, s1, d1⟩ := res1
        split at hrun <;> try exact Except.noConfusion hrun
        rename_i res2 hres2
        obtain ⟨tr2, rest2, s2, d2⟩ := res2
        obtain ⟨h1, h2, h3, h4⟩ :
            tr2 = tr ∧ (c0, cd2) :: rest2 = ch' ∧
            s1 ++ s2 = st ∧ d1 ++ d2 = df := by simpa using hrun
        obtain ⟨htags1, hpairs1⟩ := ihN ctx tree path c0 cd0
          (some (pname, pdef)) tr1 cd2 s1 d1 hszd hres1
        obtain ⟨htags2, hpairs2⟩ := ihC ctx tr1 path rest pname pdef tr2
          rest2 s2 d2 hszr hres2
        rw [← h3]
        simp only [childrenBasenames]
        constructor
        · intro e he
          rcases List.mem_append.mp he with hx | hx
          · have := htags1 e hx
            rw [List.map_cons] at this ⊢
            rcases List.mem_cons.mp this with he2 | he2
            · exact he2 ▸ List.mem_cons_self _ _
            · obtain ⟨b, hb, he3⟩ := List.mem_map.mp he2
              exact List.mem_cons_of_mem _ (he3 ▸ List.mem_map_of_mem _
                (List.mem_append_left _ hb))
          · have := htags2 e hx
            obtain ⟨b, hb, he3⟩ := List.mem_map.mp this
            rw [List.map_cons]
            exact List.mem_cons_of_mem _ (he3 ▸ List.mem_map_of_mem _
              (List.mem_append_right _ hb))
        · intro hnd pc hpc
          have hnd1 : c0 ∉ subtreeBasenames cd0 ++ childrenBasenames rest :=
            (List.nodup_cons.mp hnd).1
          have hnd2 := (List.nodup_cons.mp hnd).2
          obtain ⟨hndA, hndB, hdisj⟩ := List.nodup_append.mp hnd2
          have hndNode : (c0 :: subtreeBasenames cd0).Nodup :=
            List.nodup_cons.mpr
              ⟨fun hm => hnd1 (List.mem_append_left _ hm), hndA⟩
          simp only [pairsList] at hpc
          rcases List.mem_append.mp hpc with hx | hx
          · obtain ⟨l1, l2, hl, ha, hb⟩ := hpairs1 hndNode pc hx
            refine ⟨l1, l2 ++ s2, by rw [hl, List.append_assoc], ?_, hb⟩
            rw [tagsOf_append]
            intro hmem2
            rcases List.mem_append.mp hmem2 with hy | hy
            · exact ha hy
            · have hp1 := ((pairs_names_aux (sizeOf cd0)).1 c0 cd0 pc
                (le_refl _) hx).1
              have hforbid : pc.1 ∉ childrenBasenames rest := by
                rcases List.mem_cons.mp hp1 with he2 | he2
                · exact he2 ▸ fun hm => hnd1 (List.mem_append_right _ hm)
                · exact fun hm => hdisj he2 hm
              exact notMem_tags_of_subset htags2
                (fqn_notMem_map ctx hforbid) hy
          · obtain ⟨l1, l2, hl, ha, hb⟩ := hpairs2 hndB pc hx
            refine ⟨s1 ++ l1, l2, by rw [hl, List.append_assoc], ha, ?_⟩
            rw [tagsOf_append]
            intro hmem2
            rcases List.mem_append.mp hmem2 with hy | hy
            · have hp2 := ((pairs_names_aux (sizeOf rest)).2 rest pc
                (le_refl _) hx).2
              have hforbid : pc.2 ∉ c0 :: subtreeBasenames cd0 := by
                intro hm
                rcases List.mem_cons.mp hm with he2 | he2
                · exact hnd1 (he2 ▸ List.mem_append_right _ hp2)
                · exact hdisj he2 hp2
              exact notMem_tags_of_subset htags1
                (fqn_notMem_map ctx hforbid) hy
            · exact hb hy

theorem init_loop_order (ctx : DomainSpec) :
    ∀ (todo : List (String × TableDef)) (tree : Tables) tr st df,
      init_loop ctx tree todo = Except.ok (tr, st, df) →
      (∀ e ∈ st, e.1 ∈ (childrenBasenames todo).map (fqn ctx)) ∧
      ((childrenBasenames todo).Nodup →
        ∀ pc ∈ pairsList todo, SplitBefore st (fqn ctx pc.1) (fqn ctx pc.2))
    := by
  intro todo
  induction todo with
  | nil =>
    intro tree tr st df hrun
    obtain ⟨h1, h2, h3⟩ : tree = tr ∧ ([] : List (String × String)) = st ∧
        ([] : List (String × String)) = df := by
      simpa [init_loop] using hrun
    constructor
    · intro e he; rw [← h2] at he; cases he
    · intro _ pc hpc; cases hpc
  | cons x rest ih =>
    intro tree tr st df hrun
    obtain ⟨c0, cd0⟩ := x
    simp only [init_loop, exc_bind_eq_match] at hrun
    split at hrun <;> try exact Except.noConfusion hrun
    rename_i res1 hres1
    obtain ⟨tr1, cd2, s1, d1⟩ := res1
    split at hrun <;> try exact Except.noConfusion hrun
    rename_i res2 hres2
    obtain ⟨tr2, s2, d2⟩ := res2
    obtain ⟨h1, h2, h3⟩ : tr2 = tr ∧ s1 ++ s2 = st ∧ d1 ++ d2 = df := by
      simpa using hrun
    obtain ⟨htags1, hpairs1⟩ := (C9_aux (sizeOf cd0)).1 ctx tree [] c0 cd0
      none tr1 cd2 s1 d1 (le_refl _) hres1
    obtain ⟨htags2, hpairs2⟩ := ih tr1 tr2 s2 d2 hres2
    rw [← h2]
    simp only [childrenBasenames]
    constructor
    · intro e he
      rcases List.mem_append.mp he with hx | hx
      · have := htags1 e hx
        rw [List.map_cons] at this ⊢
        rcases List.mem_cons.mp this with he2 | he2
        · exact he2 ▸ List.mem_cons_self _ _
        · obtain ⟨b, hb, he3⟩ := List.mem_map.mp he2
          exact List.mem_cons_of_mem _ (he3 ▸ List.mem_map_of_mem _
            (List.mem_append_left _ hb))
      · have := htags2 e hx
        obtain ⟨b, hb, he3⟩ := List.mem_map.mp this
        rw [List.map_cons]
        exact List.mem_cons_of_mem _ (he3 ▸ List.mem_map_of_mem _
          (List.mem_append_right _ hb))
    · intro hnd pc hpc
      have hnd1 : c0 ∉ subtreeBasenames cd0 ++ childrenBasenames rest :=
        (List.nodup_cons.mp hnd).1
      have hnd2 := (List.nodup_cons.mp hnd).2
      obtain ⟨hndA, hndB, hdisj⟩ := List.nodup_append.mp hnd2
      have hndNode : (c0 :: subtreeBasenames cd0).Nodup :=
        List.nodup_cons.mpr
          ⟨fun hm => hnd1 (List.mem_append_left _ hm), hndA⟩
      simp only [pairsList] at hpc
      rcases List.mem_append.mp hpc with hx | hx
      · obtain ⟨l1, l2, hl, ha, hb⟩ := hpairs1 hndNode pc hx
        refine ⟨l1, l2 ++ s2, by rw [hl, List.append_assoc], ?_, hb⟩
        rw [tagsOf_append]
        intro hmem2
        rcases List.mem_append.mp hmem2 with hy | hy
        · exact ha hy
        · have hp1 := ((pairs_names_aux (sizeOf cd0)).1 c0 cd0 pc
            (le_refl _) hx).1
          have hforbid : pc.1 ∉ childrenBasenames rest := by
            rcases List.mem_cons.mp hp1 with he2 | he2
            · exact he2 ▸ fun hm => hnd1 (List.mem_append_right _ hm)
            · exact fun hm => hdisj he2 hm
          exact notMem_tags_of_subset htags2 (fqn_notMem_map ctx hforbid) hy
      · obtain ⟨l1, l2, hl, ha, hb⟩ := hpairs2 hndB pc hx
        refine ⟨s1 ++ l1, l2, by rw [hl, List.append_assoc], ha, ?_⟩
        rw [tagsOf_append]
        intro hmem2
        rcases List.mem_append.mp hmem2 with hy | hy
        · have hp2 := ((pairs_names_aux (sizeOf rest)).2 rest pc
            (le_refl _) hx).2
          have hforbid : pc.2 ∉ c0 :: subtreeBasenames cd0 := by
            intro hm
            rcases List.mem_cons.mp hm with he2 | he2
            · exact hnd1 (he2 ▸ List.mem_append_right _ hp2)
            · exact hdisj he2 hp2
          exact notMem_tags_of_subset htags1 (fqn_notMem_map ctx hforbid) hy
        · exact hb hy

/-- C9: in the generated sequence, the common `CREATE SCHEMA` statements
form the prefix of `self.ddl` before any table statement, and for every
declared parent-child pair every statement tagged with the parent's
qualified name appears strictly before every statement tagged with the
child's. -/
theorem C9_schema_and_parent_order (ctx : DomainSpec) (out : InitOut)
    (hnd : (all_table_names ctx.tables).Nodup)
    (hrun : init ctx = Except.ok out) :
    (∀ s ∈ out.common, pyStartsWith s "CREATE SCHEMA " = true) ∧
    domainDdl out = out.common ++ out.stmts.map Prod.snd ∧
    (∀ pc ∈ parent_child_pairs ctx.tables,
      ∀ i j (hi : i < out.stmts.length) (hj : j < out.stmts.length),
        (out.stmts.get ⟨i, hi⟩).1 = fqn ctx pc.1 →
        (out.stmts.get ⟨j, hj⟩).1 = fqn ctx pc.2 → i < j) := by
  have hloop : ∃ tr df, init_loop ctx ctx.tables ctx.tables =
      Except.ok (tr, out.stmts, df) ∧
      out.common = (match ctx.schema with
        | some sc => ["CREATE SCHEMA IF NOT EXISTS " ++ sc ++ ";"]
        | none => []) ++
        ctx.vars.filterMap (fun kv =>
          if pyStartsWith kv.1 "schema." then
            some ("CREATE SCHEMA IF NOT EXISTS " ++ kv.2 ++ ";")
          else none) := by
    simp only [init, exc_bind_eq_match] at hrun
    split at hrun <;> try exact Except.noConfusion hrun
    rename_i res hres
    obtain ⟨tr, st, df⟩ := res
    have h5 := Except.ok.inj hrun
    refine ⟨tr, df, ?_, ?_⟩
    · rw [hres]
      have : st = out.stmts := congrArg InitOut.stmts h5
      rw [this]
    · exact (congrArg InitOut.common h5).symm
  obtain ⟨tr, df, hl, hcommon⟩ := hloop
  refine ⟨?_, rfl, ?_⟩
  · intro s hs
    rw [hcommon] at hs
    have hshape : ∃ x : String,
        s = "CREATE SCHEMA IF NOT EXISTS " ++ x ++ ";" := by
      rcases List.mem_append.mp hs with hx | hx
      · cases hsc : ctx.schema with
        | none => rw [hsc] at hx; cases hx
        | some sc =>
          rw [hsc] at hx
          rcases List.mem_singleton.mp hx with rfl
          exact ⟨sc, rfl⟩
      · obtain ⟨kv, _, hkv⟩ := List.mem_filterMap.mp hx
        by_cases hb : pyStartsWith kv.1 "schema." = true
        · rw [if_pos hb] at hkv
          exact ⟨kv.2, (Option.some_inj.mp hkv).symm⟩
        · rw [if_neg hb] at hkv; cases hkv
    obtain ⟨x, rfl⟩ := hshape
    apply pyStartsWith_append_of_prefix
      ("CREATE SCHEMA IF NOT EXISTS " ++ x) ";"
    apply List.isPrefixOf_iff_prefix.mpr
    rw [String.data_append]
    have hpre : "CREATE SCHEMA ".data <+:
        "CREATE SCHEMA IF NOT EXISTS ".data := by decide
    exact hpre.trans (List.prefix_append _ _)
  · intro pc hpc i j hi hj hip hjc
    have := (init_loop_order ctx ctx.tables ctx.tables tr out.stmts df hl).2
      hnd pc hpc
    exact SplitBefore_get this i j hi hj hip hjc

/-- Witness for C9 on the concrete `parent`/`child` domain: the parent's
statement (index 0) precedes the child's (index 1). -/
theorem C9_schema_and_parent_order_witness :
    (match init ctxParentChild with
     | .ok out => tagsOf out.stmts
     | .error _ => []) = ["s.parent", "s.child"] ∧
    ("parent", "child") ∈ parent_child_pairs ctxParentChild.tables ∧
    (0 : Nat) < 1 := by
  refine ⟨by decide, by decide, ?_⟩
  cases hinit : init ctxParentChild with
  | error e =>
    have hok : (init ctxParentChild).isOk = true := by decide
    rw [hinit] at hok
    exact absurd hok (by simp [Except.isOk, Except.toBool])
  | ok out =>
    have htags : tagsOf out.stmts = ["s.parent", "s.child"] := by
      have hok : (match init ctxParentChild with
        | .ok o => tagsOf o.stmts
        | .error _ => []) = ["s.parent", "s.child"] := by decide
      rw [hinit] at hok
      exact hok
    have hlen : out.stmts.length = 2 := by
      have := congrArg List.length htags
      simpa [tagsOf] using this
    have h0 : (0 : Nat) < out.stmts.length := by omega
    have h1 : (1 : Nat) < out.stmts.length := by omega
    have ht0 : (out.stmts.get ⟨0, h0⟩).1 = fqn ctxParentChild "parent" := by
      have hg : (tagsOf out.stmts).get ⟨0, by simp [tagsOf]; omega⟩ =
          "s.parent" := by
        simp [htags]
      simpa [tagsOf, List.get_map] using hg
    have ht1 : (out.stmts.get ⟨1, h1⟩).1 = fqn ctxParentChild "child" := by
      have hg : (tagsOf out.stmts).get ⟨1, by simp [tagsOf]; omega⟩ =
          "s.child" := by
        simp [htags]
      simpa [tagsOf, List.get_map] using hg
    exact (C9_schema_and_parent_order ctxParentChild out (by decide)
      hinit).2.2 ("parent", "child") (by decide) 0 1 h0 h1 ht0 ht1

/-! ### Claim C8 — the dependency closure of `find_dependent` -/

theorem dictSet_app {α : Type} (k : String) (v : α) :
    ∀ old : List (String × α), k ∉ old.map Prod.fst →
      dictSet old k v = old ++ [(k, v)] := by
  intro old
  induction old with
  | nil => intro _; rfl
  | cons kv t ih =>
    intro hk
    obtain ⟨k0, v0⟩ := kv
    simp only [List.map_cons, List.mem_cons] at hk
    push_neg at hk
    simp only [dictSet]
    rw [if_neg (fun h => hk.1 h.symm), ih hk.2]
    rfl

theorem dictUpdate_app {α : Type} :
    ∀ (new old : List (String × α)), (new.map Prod.fst).Nodup →
      (∀ a ∈ new.map Prod.fst, a ∉ old.map Prod.fst) →
      dictUpdate old new = old ++ new := by
  intro new
  induction new with
  | nil => intro old _ _; simp [dictUpdate]
  | cons kv t ih =>
    intro old hnd hdisj
    obtain ⟨k, v⟩ := kv
    simp only [List.map_cons, List.nodup_cons] at hnd
    have hk : k ∉ old.map Prod.fst := hdisj k (by simp)
    have hdisj2 : ∀ a ∈ t.map Prod.fst, a ∉ (old ++ [(k, v)]).map Prod.fst := by
      intro a ha hmem
      rw [List.map_append, List.mem_append] at hmem
      rcases hmem with hx | hx
      · exact hdisj a (List.mem_cons_of_mem _ ha) hx
      · simp only [List.map_cons, List.map_nil, List.mem_singleton] at hx
        exact hnd.1 (hx ▸ ha)
    have h1 : dictUpdate old ((k, v) :: t) =
        dictUpdate (dictSet old k v) t := rfl
    rw [h1, dictSet_app k v old hk, ih (old ++ [(k, v)]) hnd.2 hdisj2,
      List.append_assoc]
    rfl

theorem alookup_mem {α : Type} :
    ∀ (l : List (String × α)) (k : String) (v : α),
      alookup l k = some v → (k, v) ∈ l := by
  intro l
  induction l with
  | nil => intro k v h; cases h
  | cons kv t ih =>
    intro k v h
    obtain ⟨k0, v0⟩ := kv
    simp only [alookup] at h
    split at h
    · rename_i heq
      injection h with h2
      rw [← heq, ← h2]
      exact List.mem_cons_self _ _
    · exact List.mem_cons_of_mem _ (ih k v h)

theorem keys_sub_childrenBasenames {ts : Tables} {n : String}
    (h : n ∈ ts.map Prod.fst) : n ∈ childrenBasenames ts := by
  induction ts with
  | nil => cases h
  | cons x rest ih =>
    obtain ⟨m, d⟩ := x
    simp only [List.map_cons, List.mem_cons] at h
    simp only [childrenBasenames]
    rcases h with he | hx
    · exact he ▸ List.mem_cons_self _ _
    · exact List.mem_cons_of_mem _ (List.mem_append_right _ (ih hx))

theorem mem_self_subtreeTables {ts : Tables} {kv : String × TableDef}
    (h : kv ∈ ts) : kv ∈ subtreeTablesL ts := by
  induction ts with
  | nil => cases h
  | cons x rest ih =>
    obtain ⟨m, d⟩ := x
    simp only [subtreeTablesL]
    cases h with
    | head => exact List.mem_cons_self _ _
    | tail _ hm =>
      exact List.mem_cons_of_mem _ (List.mem_append_right _ (ih hm))

theorem subtreeTables_name_aux : ∀ k : Nat,
    ∀ (ts : Tables) (n : String) (d : TableDef), sizeOf ts ≤ k →
      (n, d) ∈ subtreeTablesL ts → n ∈ childrenBasenames ts := by
  intro k
  induction k with
  | zero =>
    intro ts n d hsz hmem
    cases ts with
    | nil => simp [subtreeTablesL] at hmem
    | cons x rest => simp [List.cons.sizeOf_spec] at hsz
  | succ m ih =>
    intro ts n d hsz hmem
    cases ts with
    | nil => simp [subtreeTablesL] at hmem
    | cons x rest =>
      obtain ⟨xn, xd⟩ := x
      cases xd with
      | mk c p ch cr i ir =>
        have hszc : sizeOf ch ≤ m := by
          simp [List.cons.sizeOf_spec, Prod.mk.sizeOf_spec,
            TableDef.mk.sizeOf_spec] at hsz
          omega
        have hszr : sizeOf rest ≤ m := by
          simp [List.cons.sizeOf_spec] at hsz; omega
        simp only [subtreeTablesL] at hmem
        simp only [childrenBasenames, subtreeBasenames]
        rcases List.mem_cons.mp hmem with he | hx
        · have h1 : n = xn := congrArg Prod.fst he
          rw [h1]
          exact List.mem_cons_self _ _
        · rcases List.mem_append.mp hx with hy | hy
          · have hy2 : (n, d) ∈ subtreeTablesL ch := hy
            exact List.mem_cons_of_mem _
              (List.mem_append_left _ (ih ch n d hszc hy2))
          · exact List.mem_cons_of_mem _
              (List.mem_append_right _ (ih rest n d hszr hy))

theorem subtreeTables_trans_aux : ∀ k : Nat,
    ∀ (ts : Tables) (n : String) (td : TableDef) (kv : String × TableDef),
      sizeOf ts ≤ k → (n, td) ∈ subtreeTablesL ts →
      kv ∈ subtreeTablesL td.children → kv ∈ subtreeTablesL ts := by
  intro k
  induction k with
  | zero =>
    intro ts n td kv hsz hmem _
    cases ts with
    | nil => simp [subtreeTablesL] at hmem
    | cons x rest => simp [List.cons.sizeOf_spec] at hsz
  | succ m ih =>
    intro ts n td kv hsz hmem hkv
    cases ts with
    | nil => simp [subtreeTablesL] at hmem
    | cons x rest =>
      obtain ⟨xn, xd⟩ := x
      cases xd with
      | mk c p ch cr i ir =>
        have hszc : sizeOf ch ≤ m := by
          simp [List.cons.sizeOf_spec, Prod.mk.sizeOf_spec,
            TableDef.mk.sizeOf_spec] at hsz
          omega
        have hszr : sizeOf rest ≤ m := by
          simp [List.cons.sizeOf_spec] at hsz; omega
        simp only [subtreeTablesL] at hmem
        simp only [subtreeTablesL]
        rcases List.mem_cons.mp hmem with he | hx
        · have h2 : td = TableDef.mk c p ch cr i ir := congrArg Prod.snd he
          have hkv2 : kv ∈ subtreeTablesL ch := by
            have := h2 ▸ hkv
            exact this
          exact List.mem_cons_of_mem _ (List.mem_append_left _ hkv2)
        · rcases List.mem_append.mp hx with hy | hy
          · have hy2 : (n, td) ∈ subtreeTablesL ch := hy
            exact List.mem_cons_of_mem _
              (List.mem_append_left _ (ih ch n td kv hszc hy2 hkv))
          · exact List.mem_cons_of_mem _
              (List.mem_append_right _ (ih rest n td kv hszr hy hkv))

theorem findIn_eq (c : List Column) (p : Option (List String)) (ch : Tables)
    (cr : Option CreateDef) (i : List (String × NamedIndex))
    (ir : Option InvalidRecords) (n : String) :
    findIn (TableDef.mk c p ch cr i ir) n = findT ch n := rfl

theorem findEach_mem_aux : ∀ k : Nat,
    ∀ (ts : Tables) (n : String) (d : TableDef), sizeOf ts ≤ k →
      findEach ts n = some d → (n, d) ∈ subtreeTablesL ts := by
  intro k
  induction k with
  | zero =>
    intro ts n d hsz h
    cases ts with
    | nil => simp [findEach] at h
    | cons x rest => simp [List.cons.sizeOf_spec] at hsz
  | succ m ih =>
    intro ts n d hsz h
    cases ts with
    | nil => simp [findEach] at h
    | cons x rest =>
      obtain ⟨xn, xd⟩ := x
      cases xd with
      | mk c p ch cr i ir =>
        have hszc : sizeOf ch ≤ m := by
          simp [List.cons.sizeOf_spec, Prod.mk.sizeOf_spec,
            TableDef.mk.sizeOf_spec] at hsz
          omega
        have hszr : sizeOf rest ≤ m := by
          simp [List.cons.sizeOf_spec] at hsz; omega
        simp only [findEach] at h
        simp only [subtreeTablesL]
        cases hf : findIn (TableDef.mk c p ch cr i ir) n with
        | some r =>
          rw [hf] at h
          injection h with h2
          rw [findIn_eq] at hf
          simp only [findT] at hf
          cases hal : alookup ch n with
          | some v =>
            rw [hal] at hf
            injection hf with h3
            have : (n, d) ∈ ch := by
              rw [← h2, ← h3]
              exact alookup_mem ch n v hal
            exact List.mem_cons_of_mem _
              (List.mem_append_left _ (mem_self_subtreeTables this))
          | none =>
            rw [hal] at hf
            have : (n, d) ∈ subtreeTablesL ch :=
              ih ch n d hszc (h2 ▸ hf)
            exact List.mem_cons_of_mem _ (List.mem_append_left _ this)
        | none =>
          rw [hf] at h
          exact List.mem_cons_of_mem _
            (List.mem_append_right _ (ih rest n d hszr h))

theorem findT_mem {ts : Tables} {n : String} {d : TableDef}
    (h : findT ts n = some d) : (n, d) ∈ subtreeTablesL ts := by
  simp only [findT] at h
  cases ha : alookup ts n with
  | some v =>
    rw [ha] at h
    injection h with h2
    exact mem_self_subtreeTables (h2 ▸ alookup_mem ts n v ha)
  | none =>
    rw [ha] at h
    exact findEach_mem_aux (sizeOf ts) ts n d (le_refl _) h

theorem findable_aux : ∀ k : Nat,
    ∀ (ts : Tables) (n : String), sizeOf ts ≤ k →
      n ∈ childrenBasenames ts → (findT ts n).isSome = true := by
  intro k
  induction k with
  | zero =>
    intro ts n hsz hmem
    cases ts with
    | nil => simp [childrenBasenames] at hmem
    | cons x rest => simp [List.cons.sizeOf_spec] at hsz
  | succ m ih =>
    intro ts n hsz hmem
    cases ts with
    | nil => simp [childrenBasenames] at hmem
    | cons x rest =>
      obtain ⟨xn, xd⟩ := x
      cases xd with
      | mk c p ch cr i ir =>
        have hszc : sizeOf ch ≤ m := by
          simp [List.cons.sizeOf_spec, Prod.mk.sizeOf_spec,
            TableDef.mk.sizeOf_spec] at hsz
          omega
        have hszr : sizeOf rest ≤ m := by
          simp [List.cons.sizeOf_spec] at hsz; omega
        simp only [childrenBasenames, subtreeBasenames] at hmem
        by_cases hx : xn = n
        · simp [findT, alookup, hx]
        · have hal1 : alookup ((xn, TableDef.mk c p ch cr i ir) :: rest) n =
              alookup rest n := by
            simp only [alookup]
            rw [if_neg hx]
          rcases List.mem_cons.mp hmem with he | hy
          · exact absurd he.symm hx
          · rcases List.mem_append.mp hy with hz | hz
            · have := ih ch n hszc hz
              cases hfc : findT ch n with
              | none => rw [hfc] at this; simp [Option.isSome] at this
              | some r =>
                cases hal : alookup rest n with
                | some v => simp [findT, hal1, hal]
                | none =>
                  have hfi : findIn (TableDef.mk c p ch cr i ir) n =
                      some r := by rw [findIn_eq]; exact hfc
                  simp [findT, hal1, hal, findEach, hfi]
            · have := ih rest n hszr hz
              cases hal : alookup rest n with
              | some v => simp [findT, hal1, hal]
              | none =>
                simp only [findT, hal] at this
                cases hfe : findEach rest n with
                | none => rw [hfe] at this; simp [Option.isSome] at this
                | some r2 =>
                  cases hfi : findIn (TableDef.mk c p ch cr i ir) n with
                  | some r => simp [findT, hal1, hal, findEach, hfi]
                  | none => simp [findT, hal1, hal, findEach, hfi, hfe]

theorem foldlExcept_err {ε α β : Type} (f : β → α → Except ε β) :
    ∀ (l : List α) (b : β) (e : ε), foldlExcept f b l = Except.error e →
      ∃ x ∈ l, ∃ b0, f b0 x = Except.error e := by
  intro l
  induction l with
  | nil =>
    intro b e h
    simp only [foldlExcept] at h
    exact Except.noConfusion h
  | cons x t ih =>
    intro b e h
    simp only [foldlExcept, exc_bind_eq_match] at h
    split at h
    · rename_i b1 hb1
      obtain ⟨y, hy, b0, hf⟩ := ih b1 e h
      exact ⟨y, List.mem_cons_of_mem _ hy, b0, hf⟩
    · rename_i e1 he1
      injection h with h2
      exact ⟨x, List.mem_cons_self _ _, b, h2 ▸ he1⟩

theorem findT_unique_aux : ∀ k : Nat,
    ∀ (ts : Tables) (n : String) (d : TableDef), sizeOf ts ≤ k →
      (childrenBasenames ts).Nodup → (n, d) ∈ subtreeTablesL ts →
      findT ts n = some d := by
  intro k
  induction k with
  | zero =>
    intro ts n d hsz _ hmem
    cases ts with
    | nil => simp [subtreeTablesL] at hmem
    | cons x rest => simp [List.cons.sizeOf_spec] at hsz
  | succ m ih =>
    intro ts n d hsz hnd hmem
    cases ts with
    | nil => simp [subtreeTablesL] at hmem
    | cons x rest =>
      obtain ⟨xn, xd⟩ := x
      cases xd with
      | mk c p ch cr i ir =>
        have hszc : sizeOf ch ≤ m := by
          simp [List.cons.sizeOf_spec, Prod.mk.sizeOf_spec,
            TableDef.mk.sizeOf_spec] at hsz
          omega
        have hszr : sizeOf rest ≤ m := by
          simp [List.cons.sizeOf_spec] at hsz; omega
        simp only [childrenBasenames, subtreeBasenames] at hnd
        have hnd1 : xn ∉ childrenBasenames ch ++ childrenBasenames rest :=
          (List.nodup_cons.mp hnd).1
        obtain ⟨hndA, hndB, hdisj⟩ :=
          List.nodup_append.mp (List.nodup_cons.mp hnd).2
        simp only [subtreeTablesL] at hmem
        rcases List.mem_cons.mp hmem with he | hx
        · have h1 : n = xn := congrArg Prod.fst he
          have h2 : d = TableDef.mk c p ch cr i ir := congrArg Prod.snd he
          simp [findT, alookup, h1.symm, h2]
        · rcases List.mem_append.mp hx with hy | hy
          · have hy2 : (n, d) ∈ subtreeTablesL ch := hy
            have hnsub : n ∈ childrenBasenames ch :=
              subtreeTables_name_aux (sizeOf ch) ch n d (le_refl _) hy2
            have hne : ¬ xn = n := fun he2 =>
              hnd1 (List.mem_append_left _ (he2 ▸ hnsub))
            have hal : alookup rest n = none := by
              cases hal2 : alookup rest n with
              | none => rfl
              | some v =>
                have : n ∈ rest.map Prod.fst :=
                  List.mem_map_of_mem Prod.fst (alookup_mem rest n v hal2)
                exact absurd (keys_sub_childrenBasenames this)
                  (hdisj hnsub)
            have hfc : findT ch n = some d :=
              ih ch n d hszc hndA hy2
            have h1 : alookup ((xn, TableDef.mk c p ch cr i ir) :: rest) n =
                none := by
              simp only [alookup]
              rw [if_neg hne, hal]
            have hfi : findIn (TableDef.mk c p ch cr i ir) n = some d := by
              rw [findIn_eq]; exact hfc
            simp [findT, h1, findEach, hfi]
          · have hnsub : n ∈ childrenBasenames rest :=
              subtreeTables_name_aux (sizeOf rest) rest n d (le_refl _) hy
            have hne : ¬ xn = n := fun he2 =>
              hnd1 (List.mem_append_right _ (he2 ▸ hnsub))
            have hfr : findT rest n = some d :=
              ih rest n d hszr hndB hy
            cases hal : alookup rest n with
            | some v =>
              have h1 : alookup ((xn, TableDef.mk c p ch cr i ir) :: rest) n =
                  some v := by
                simp only [alookup]
                rw [if_neg hne, hal]
              have h2 : some v = some d := by
                simp only [findT, hal] at hfr
                exact hfr
              simp only [findT, h1]
              exact h2
            | none =>
              have h1 : alookup ((xn, TableDef.mk c p ch cr i ir) :: rest) n =
                  none := by
                simp only [alookup]
                rw [if_neg hne, hal]
              simp only [findT, hal] at hfr
              cases hfi : findIn (TableDef.mk c p ch cr i ir) n with
              | some r =>
                rw [findIn_eq] at hfi
                have : n ∈ childrenBasenames ch :=
                  subtreeTables_name_aux (sizeOf ch) ch n r (le_refl _)
                    (findT_mem hfi)
                exact absurd hnsub (hdisj this)
              | none =>
                simp [findT, h1, findEach, hfi, hfr]

theorem find_dependent_no_lookup (ctx : DomainSpec) :
    ∀ (fuel : Nat) (table : String),
      (findT ctx.tables table).isSome = true →
      ∀ m, find_dependent ctx fuel table ≠
        Except.error (DepErr.lookupErr m) := by
  intro fuel
  induction fuel with
  | zero =>
    intro table _ m h
    exact DepErr.noConfusion (Except.error.inj h)
  | succ f ih =>
    intro table hfind m h
    cases hft : findT ctx.tables table with
    | none => rw [hft] at hfind; simp [Option.isSome] at hfind
    | some t =>
      simp only [find_dependent, hft, exc_bind_eq_match] at h
      split at h
      · rename_i result hres
        split at h
        · rename_i v hv
          split at h <;> exact Except.noConfusion h
        · rename_i e2 he2
          injection h with h3
          exact DepErr.noConfusion h3
      · rename_i e1 he1
        injection h with h2
        rw [h2] at he1
        obtain ⟨kv, hkv, b0, hf⟩ := foldlExcept_err _ t.children _ _ he1
        split at hf
        · exact Except.noConfusion hf
        · rename_i e2 he2
          injection hf with h3
          rw [h3] at he2
          have hmem : (table, t) ∈ subtreeTablesL ctx.tables := findT_mem hft
          have hkv2 : (kv.1, kv.2) ∈ subtreeTablesL ctx.tables :=
            subtreeTables_trans_aux (sizeOf ctx.tables) ctx.tables table t
              (kv.1, kv.2) (le_refl _) hmem (mem_self_subtreeTables hkv)
          have hname : kv.1 ∈ childrenBasenames ctx.tables :=
            subtreeTables_name_aux (sizeOf ctx.tables) ctx.tables kv.1 kv.2
              (le_refl _) hkv2
          have hsome := findable_aux (sizeOf ctx.tables) ctx.tables kv.1
            (le_refl _) hname
          exact ih kv.1 hsome m he2

theorem find_dependent_ok_of (ctx : DomainSpec) (f : Nat) (table : String)
    (c : List Column) (p : Option (List String)) (ch : Tables)
    (cr : Option CreateDef) (i : List (String × NamedIndex))
    (ir : Option InvalidRecords) (r1 : List (String × DepEntry))
    (hft : findT ctx.tables table = some (TableDef.mk c p ch cr i ir))
    (hfold : depFold ctx f
      [(fqn ctx table, DepEntry.tbl (TableDef.mk c p ch cr i ir))] ch =
      Except.ok r1) :
    find_dependent ctx (f + 1) table =
      match spillover_table ctx table (TableDef.mk c p ch cr i ir) with
      | Except.error e => Except.error (DepErr.keyErr e)
      | Except.ok (some s) => Except.ok (dictSet r1 s DepEntry.spill)
      | Except.ok none => Except.ok r1 := by
  simp only [depFold] at hfold
  cases hs : spillover_table ctx table (TableDef.mk c p ch cr i ir) with
  | error e => simp [find_dependent, hft, TableDef.children, hfold, hs]
  | ok v =>
    cases v with
    | none => simp [find_dependent, hft, TableDef.children, hfold, hs]
    | some s => simp [find_dependent, hft, TableDef.children, hfold, hs]

theorem depFold_cons_ok (ctx : DomainSpec) (fuel : Nat)
    (acc : List (String × DepEntry)) (m0 : String) (d0 : TableDef)
    (rest : Tables) (r0 : List (String × DepEntry))
    (h : find_dependent ctx fuel m0 = Except.ok r0) :
    depFold ctx fuel acc ((m0, d0) :: rest) =
      depFold ctx fuel (dictUpdate acc r0) rest := by
  simp [depFold, foldlExcept, h]

theorem find_dependent_keys_aux : ∀ k : Nat,
    (∀ (ctx : DomainSpec) (n : String) (td : TableDef) (fuel : Nat),
      sizeOf td ≤ k →
      (all_table_names ctx.tables).Nodup →
      (n, td) ∈ subtreeTablesL ctx.tables →
      (∀ md ∈ subtreeTablesL ctx.tables,
        (spillover_table ctx md.1 md.2).isOk = true) →
      (depKeysT ctx n td).Nodup →
      heightT td ≤ fuel →
      ∃ r, find_dependent ctx fuel n = Except.ok r ∧
        r.map Prod.fst = depKeysT ctx n td) ∧
    (∀ (ctx : DomainSpec) (ch : Tables) (acc : List (String × DepEntry))
      (fuel : Nat),
      sizeOf ch ≤ k →
      (all_table_names ctx.tables).Nodup →
      (∀ kv ∈ ch, kv ∈ subtreeTablesL ctx.tables) →
      (∀ md ∈ subtreeTablesL ctx.tables,
        (spillover_table ctx md.1 md.2).isOk = true) →
      (acc.map Prod.fst ++ depKeysL ctx ch).Nodup →
      heightL ch ≤ fuel →
      ∃ r, depFold ctx fuel acc ch = Except.ok r ∧
        r.map Prod.fst = acc.map Prod.fst ++ depKeysL ctx ch) := by
  intro k
  induction k with
  | zero =>
    constructor
    · intro ctx n td fuel hsz _ _ _ _ _
      cases td with
      | mk c p ch cr i ir => simp [TableDef.mk.sizeOf_spec] at hsz
    · intro ctx ch acc fuel hsz _ _ _ _ _
      cases ch with
      | nil => exact ⟨acc, rfl, by simp [depKeysL]⟩
      | cons x rest => simp [List.cons.sizeOf_spec] at hsz
  | succ m ih =>
    obtain ⟨ihN, ihC⟩ := ih
    constructor
    · intro ctx n td fuel hsz hnd hmem hsp hkeys hfu
      cases td with
      | mk c p ch cr i ir =>
        have hszc : sizeOf ch ≤ m := by
          simp [TableDef.mk.sizeOf_spec] at hsz; omega
        simp only [heightT] at hfu
        cases fuel with
        | zero => omega
        | succ f =>
          have hfl : heightL ch ≤ f := by omega
          have hft : findT ctx.tables n =
              some (TableDef.mk c p ch cr i ir) :=
            findT_unique_aux (sizeOf ctx.tables) ctx.tables n _ (le_refl _)
              hnd hmem
          have hkv : ∀ kv ∈ ch, kv ∈ subtreeTablesL ctx.tables := by
            intro kv hkvm
            exact subtreeTables_trans_aux (sizeOf ctx.tables) ctx.tables n
              (TableDef.mk c p ch cr i ir) kv (le_refl _) hmem
              (mem_self_subtreeTables hkvm)
          simp only [depKeysT] at hkeys
          have hkeys2 : (([(fqn ctx n,
              DepEntry.tbl (TableDef.mk c p ch cr i ir))].map Prod.fst) ++
              depKeysL ctx ch).Nodup := by
            simp only [List.map_cons, List.map_nil, List.singleton_append]
            exact List.Nodup.sublist
              (List.Sublist.cons₂ _ (List.sublist_append_left _ _)) hkeys
          obtain ⟨r1, hfold, hk1⟩ := ihC ctx ch
            [(fqn ctx n, DepEntry.tbl (TableDef.mk c p ch cr i ir))] f
            hszc hnd hkv hsp hkeys2 hfl
          have hsm := hsp (n, TableDef.mk c p ch cr i ir) hmem
          have heq := find_dependent_ok_of ctx f n c p ch cr i ir r1 hft hfold
          cases hsv : spillover_table ctx n (TableDef.mk c p ch cr i ir) with
          | error e =>
            rw [hsv] at hsm
            simp [Except.isOk, Except.toBool] at hsm
          | ok v =>
            rw [hsv] at heq
            simp only [hsv] at hkeys
            cases v with
            | none =>
              refine ⟨r1, heq.trans rfl, ?_⟩
              rw [hk1]
              simp [depKeysT, hsv]
            | some s =>
              have hndc := List.nodup_cons.mp hkeys
              obtain ⟨hndA, hndB, hdisj⟩ := List.nodup_append.mp hndc.2
              have hs1 : s ∉ depKeysL ctx ch := by
                intro hm
                exact hdisj hm (List.mem_singleton.mpr rfl)
              have hs2 : ¬ s = fqn ctx n := by
                intro hm
                exact hndc.1 (hm ▸ List.mem_append_right _
                  (List.mem_singleton.mpr rfl))
              have hnots : s ∉ r1.map Prod.fst := by
                rw [hk1]
                simp only [List.map_cons, List.map_nil,
                  List.singleton_append, List.mem_cons]
                rintro (hm | hm)
                · exact hs2 hm
                · exact hs1 hm
              refine ⟨dictSet r1 s DepEntry.spill, heq.trans rfl, ?_⟩
              rw [dictSet_app s DepEntry.spill r1 hnots, List.map_append,
                hk1]
              simp [depKeysT, hsv]
    · intro ctx ch acc fuel hsz hnd hself hsp hkeys hfl
      cases ch with
      | nil => exact ⟨acc, rfl, by simp [depKeysL]⟩
      | cons x rest =>
        obtain ⟨m0, d0⟩ := x
        have hszd : sizeOf d0 ≤ m := by
          simp [List.cons.sizeOf_spec, Prod.mk.sizeOf_spec] at hsz; omega
        have hszr : sizeOf rest ≤ m := by
          simp [List.cons.sizeOf_spec] at hsz; omega
        simp only [heightL] at hfl
        have hfd : heightT d0 ≤ fuel := le_trans (le_max_left _ _) hfl
        have hfr : heightL rest ≤ fuel := le_trans (le_max_right _ _) hfl
        simp only [depKeysL] at hkeys
        have hkT : (depKeysT ctx m0 d0).Nodup :=
          List.Nodup.sublist ((List.sublist_append_left _ _).trans
            (List.sublist_append_right _ _)) hkeys
        have hm0 : (m0, d0) ∈ subtreeTablesL ctx.tables :=
          hself (m0, d0) (List.mem_cons_self _ _)
        obtain ⟨r0, hr0, hk0⟩ := ihN ctx m0 d0 fuel hszd hnd hm0 hsp hkT hfd
        obtain ⟨hnd1, hnd2, hdisj⟩ := List.nodup_append.mp hkeys
        have hr0nd : (r0.map Prod.fst).Nodup := by rw [hk0]; exact hkT
        have hr0disj : ∀ a ∈ r0.map Prod.fst, a ∉ acc.map Prod.fst := by
          intro a ha hacc
          rw [hk0] at ha
          exact hdisj hacc (List.mem_append_left _ ha)
        have hupd : dictUpdate acc r0 = acc ++ r0 :=
          dictUpdate_app r0 acc hr0nd hr0disj
        have hself2 : ∀ kv ∈ rest, kv ∈ subtreeTablesL ctx.tables :=
          fun kv hm => hself kv (List.mem_cons_of_mem _ hm)
        have hkeys2 : ((acc ++ r0).map Prod.fst ++
            depKeysL ctx rest).Nodup := by
          rw [List.map_append, hk0, List.append_assoc]
          exact hkeys
        obtain ⟨r2, hr2, hk2⟩ := ihC ctx rest (acc ++ r0) fuel hszr hnd
          hself2 hsp hkeys2 hfr
        refine ⟨r2, ?_, ?_⟩
        · rw [depFold_cons_ok ctx fuel acc m0 d0 rest r0 hr0, hupd]
          exact hr2
        · rw [hk2, List.map_append, hk0, List.append_assoc]
          simp [depKeysL]

theorem name_mem_depKeys_aux : ∀ k : Nat,
    (∀ (ctx : DomainSpec) (n : String) (td : TableDef) (b : String),
      sizeOf td ≤ k → b ∈ n :: subtreeBasenames td →
      fqn ctx b ∈ depKeysT ctx n td) ∧
    (∀ (ctx : DomainSpec) (ch : Tables) (b : String),
      sizeOf ch ≤ k → b ∈ childrenBasenames ch →
      fqn ctx b ∈ depKeysL ctx ch) := by
  intro k
  induction k with
  | zero =>
    constructor
    · intro ctx n td b hsz _
      cases td with
      | mk c p ch cr i ir => simp [TableDef.mk.sizeOf_spec] at hsz
    · intro ctx ch b hsz hmem
      cases ch with
      | nil => simp [childrenBasenames] at hmem
      | cons x rest => simp [List.cons.sizeOf_spec] at hsz
  | succ m ih =>
    obtain ⟨ihN, ihC⟩ := ih
    constructor
    · intro ctx n td b hsz hmem
      cases td with
      | mk c p ch cr i ir =>
        have hszc : sizeOf ch ≤ m := by
          simp [TableDef.mk.sizeOf_spec] at hsz; omega
        simp only [subtreeBasenames] at hmem
        simp only [depKeysT]
        rcases List.mem_cons.mp hmem with he | hx
        · exact he ▸ List.mem_cons_self _ _
        · exact List.mem_cons_of_mem _
            (List.mem_append_left _ (ihC ctx ch b hszc hx))
    · intro ctx ch b hsz hmem
      cases ch with
      | nil => simp [childrenBasenames] at hmem
      | cons x rest =>
        obtain ⟨m0, d0⟩ := x
        have hszd : sizeOf d0 ≤ m := by
          simp [List.cons.sizeOf_spec, Prod.mk.sizeOf_spec] at hsz; omega
        have hszr : sizeOf rest ≤ m := by
          simp [List.cons.sizeOf_spec] at hsz; omega
        simp only [childrenBasenames] at hmem
        simp only [depKeysL]
        rcases List.mem_cons.mp hmem with he | hx
        · exact List.mem_append_left _
            (ihN ctx m0 d0 b hszd (he ▸ List.mem_cons_self _ _))
        · rcases List.mem_append.mp hx with hy | hy
          · exact List.mem_append_left _
              (ihN ctx m0 d0 b hszd (List.mem_cons_of_mem _ hy))
          · exact List.mem_append_right _ (ihC ctx rest b hszr hy)

theorem depKeys_order_aux : ∀ k : Nat,
    (∀ (ctx : DomainSpec) (n : String) (td : TableDef), sizeOf td ≤ k →
      (depKeysT ctx n td).Nodup →
      ∀ pc ∈ pairsOf n td,
        SplitBeforeS (depKeysT ctx n td) (fqn ctx pc.1) (fqn ctx pc.2)) ∧
    (∀ (ctx : DomainSpec) (ch : Tables), sizeOf ch ≤ k →
      (depKeysL ctx ch).Nodup →
      ∀ pc ∈ pairsList ch,
        SplitBeforeS (depKeysL ctx ch) (fqn ctx pc.1) (fqn ctx pc.2)) := by
  intro k
  induction k with
  | zero =>
    constructor
    · intro ctx n td hsz _ _ _
      cases td with
      | mk c p ch cr i ir => simp [TableDef.mk.sizeOf_spec] at hsz
    · intro ctx ch hsz _ pc hmem
      cases ch with
      | nil => cases hmem
      | cons x rest => simp [List.cons.sizeOf_spec] at hsz
  | succ m ih =>
    obtain ⟨ihN, ihC⟩ := ih
    constructor
    · intro ctx n td hsz hnd pc hmem
      cases td with
      | mk c p ch cr i ir =>
        have hszc : sizeOf ch ≤ m := by
          simp [TableDef.mk.sizeOf_spec] at hsz; omega
        simp only [depKeysT] at hnd ⊢
        have hhead : fqn ctx n ∉ depKeysL ctx ch ++
            (match spillover_table ctx n (TableDef.mk c p ch cr i ir) with
             | Except.ok (some s) => [s]
             | _ => []) := (List.nodup_cons.mp hnd).1
        obtain ⟨hndL, hndS, hdisjS⟩ :=
          List.nodup_append.mp (List.nodup_cons.mp hnd).2
        simp only [pairsOf] at hmem
        rcases List.mem_append.mp hmem with h1 | h2
        · obtain ⟨kv, hkv, he⟩ := List.mem_map.mp h1
          refine ⟨[fqn ctx n], _, rfl, ?_, ?_⟩
          · rw [← he]
            exact hhead
          · rw [← he]
            simp only [List.mem_singleton]
            intro hm
            have hin : fqn ctx kv.1 ∈ depKeysL ctx ch :=
              (name_mem_depKeys_aux (sizeOf ch)).2 ctx ch kv.1 (le_refl _)
                (key_mem_childrenBasenames hkv)
            exact hhead (hm ▸ List.mem_append_left _ hin)
        · obtain ⟨l1, l2, heq, ha, hb⟩ := ihC ctx ch hszc hndL pc h2
          have hp1 : fqn ctx pc.1 ∈ depKeysL ctx ch :=
            (name_mem_depKeys_aux (sizeOf ch)).2 ctx ch pc.1 (le_refl _)
              ((pairs_names_aux (sizeOf ch)).2 ch pc (le_refl _) h2).1
          have hp2 : fqn ctx pc.2 ∈ depKeysL ctx ch :=
            (name_mem_depKeys_aux (sizeOf ch)).2 ctx ch pc.2 (le_refl _)
              ((pairs_names_aux (sizeOf ch)).2 ch pc (le_refl _) h2).2
          refine ⟨fqn ctx n :: l1, l2 ++
            (match spillover_table ctx n (TableDef.mk c p ch cr i ir) with
             | Except.ok (some s) => [s]
             | _ => []), by rw [List.cons_append, ← List.append_assoc, ← heq],
            ?_, ?_⟩
          · intro hm
            rcases List.mem_append.mp hm with hy | hy
            · exact ha hy
            · exact hdisjS hp1 hy
          · intro hm
            rcases List.mem_cons.mp hm with hy | hy
            · exact hhead (hy ▸ List.mem_append_left _ hp2)
            · exact hb hy
    · intro ctx ch hsz hnd pc hmem
      cases ch with
      | nil => cases hmem
      | cons x rest =>
        obtain ⟨m0, d0⟩ := x
        have hszd : sizeOf d0 ≤ m := by
          simp [List.cons.sizeOf_spec, Prod.mk.sizeOf_spec] at hsz; omega
        have hszr : sizeOf rest ≤ m := by
          simp [List.cons.sizeOf_spec] at hsz; omega
        simp only [depKeysL] at hnd ⊢
        obtain ⟨hndT, hndR, hdisj⟩ := List.nodup_append.mp hnd
        simp only [pairsList] at hmem
        rcases List.mem_append.mp hmem with h1 | h2
        · obtain ⟨l1, l2, heq, ha, hb⟩ := ihN ctx m0 d0 hszd hndT pc h1
          have hp1 : fqn ctx pc.1 ∈ depKeysT ctx m0 d0 :=
            (name_mem_depKeys_aux (sizeOf d0)).1 ctx m0 d0 pc.1 (le_refl _)
              ((pairs_names_aux (sizeOf d0)).1 m0 d0 pc (le_refl _) h1).1
          refine ⟨l1, l2 ++ depKeysL ctx rest,
            by rw [← List.append_assoc, ← heq], ?_, hb⟩
          intro hm
          rcases List.mem_append.mp hm with hy | hy
          · exact ha hy
          · exact hdisj hp1 hy
        · obtain ⟨l1, l2, heq, ha, hb⟩ := ihC ctx rest hszr hndR pc h2
          have hp2 : fqn ctx pc.2 ∈ depKeysL ctx rest :=
            (name_mem_depKeys_aux (sizeOf rest)).2 ctx rest pc.2 (le_refl _)
              ((pairs_names_aux (sizeOf rest)).2 rest pc (le_refl _) h2).2
          refine ⟨depKeysT ctx m0 d0 ++ l1, l2,
            by rw [heq, List.append_assoc], ha, ?_⟩
          intro hm
          rcases List.mem_append.mp hm with hy | hy
          · exact hdisj hy hp2
          · exact hb hy

theorem SplitBeforeS_get {l : List String} {a b : String}
    (h : SplitBeforeS l a b) :
    ∀ i j (hi : i < l.length) (hj : j < l.length),
      l.get ⟨i, hi⟩ = a → l.get ⟨j, hj⟩ = b → i < j := by
  obtain ⟨l1, l2, rfl, ha, hb⟩ := h
  intro i j hi hj hia hjb
  have hib : i < l1.length := by
    by_contra hge
    push_neg at hge
    have hmem : (l1 ++ l2).get ⟨i, hi⟩ ∈ l2 := by
      rw [List.get_eq_getElem, List.getElem_append_right hge]
      exact List.getElem_mem _
    exact ha (hia ▸ hmem)
  have hjb2 : l1.length ≤ j := by
    by_contra hlt
    push_neg at hlt
    have hmem : (l1 ++ l2).get ⟨j, hj⟩ ∈ l1 := by
      rw [List.get_eq_getElem, List.getElem_append_left hlt]
      exact List.getElem_mem _
    exact hb (hjb ▸ hmem)
  omega

/-- C8: with any positive recursion budget, `find_dependent` raises
`LookupError` exactly when the requested name is found nowhere in the
domain tree; when the name is found (with globally distinct table names,
error-free spillover resolution, collision-free key sequence, and budget
covering the subtree height) it returns the dictionary whose keys are, in
order and each exactly once, the table's own qualified name, the
dependency closures of its children, and its spillover target, so every
parent's key precedes the keys of its declared children. -/
theorem C8_find_dependent_closure (ctx : DomainSpec) (fuel : Nat)
    (table : String) (hfuel : 1 ≤ fuel) :
    ((∃ m, find_dependent ctx fuel table =
        Except.error (DepErr.lookupErr m)) ↔
      findT ctx.tables table = none) ∧
    (∀ td, (table, td) ∈ subtreeTablesL ctx.tables →
      (all_table_names ctx.tables).Nodup →
      (∀ md ∈ subtreeTablesL ctx.tables,
        (spillover_table ctx md.1 md.2).isOk = true) →
      (depKeysT ctx table td).Nodup →
      heightT td ≤ fuel →
      ∃ r, find_dependent ctx fuel table = Except.ok r ∧
        r.map Prod.fst = depKeysT ctx table td ∧
        (r.map Prod.fst).Nodup ∧
        (∀ pc ∈ pairsOf table td,
          ∀ i j (hi : i < r.length) (hj : j < r.length),
            (r.get ⟨i, hi⟩).1 = fqn ctx pc.1 →
            (r.get ⟨j, hj⟩).1 = fqn ctx pc.2 → i < j)) := by
  constructor
  · constructor
    · rintro ⟨m, hm⟩
      cases hft : findT ctx.tables table with
      | none => rfl
      | some t =>
        exact absurd hm
          (find_dependent_no_lookup ctx fuel table (by rw [hft]; rfl) m)
    · intro hft
      obtain ⟨f, rfl⟩ : ∃ f, fuel = f + 1 := ⟨fuel - 1, by omega⟩
      refine ⟨"Table " ++ table ++ " does not exist in domain", ?_⟩
      simp only [find_dependent, hft]
  · intro td hmem hnd hsp hkeys hfl
    obtain ⟨r, hr, hk⟩ := (find_dependent_keys_aux (sizeOf td)).1 ctx table
      td fuel (le_refl _) hnd hmem hsp hkeys hfl
    refine ⟨r, hr, hk, by rw [hk]; exact hkeys, ?_⟩
    intro pc hpc i j hi hj hi1 hj1
    have hsplit := (depKeys_order_aux (sizeOf td)).1 ctx table td (le_refl _)
      hkeys pc hpc
    rw [← hk] at hsplit
    have hi2 : i < (r.map Prod.fst).length := by
      rw [List.length_map]; exact hi
    have hj2 : j < (r.map Prod.fst).length := by
      rw [List.length_map]; exact hj
    refine SplitBeforeS_get hsplit i j hi2 hj2 ?_ ?_
    · rw [List.get_eq_getElem, List.getElem_map]
      exact hi1
    · rw [List.get_eq_getElem, List.getElem_map]
      exact hj1

/-- Witness for C8 on the concrete spillover domain: looking up a missing
name raises the lookup error, and the closure of `parent` lists
`s.parent`, then its child `s.child`, then the child's audit spillover
target `aud.child`. -/
theorem C8_find_dependent_closure_witness :
    (∃ m, find_dependent ctxSpill 5 "zzz" =
      Except.error (DepErr.lookupErr m)) ∧
    (∃ r, find_dependent ctxSpill 5 "parent" = Except.ok r ∧
      r.map Prod.fst = ["s.parent", "s.child", "aud.child"]) := by
  constructor
  · exact (C8_find_dependent_closure ctxSpill 5 "zzz" (by decide)).1.mpr
      (by rfl)
  · obtain ⟨r, hr, hk, h3, h4⟩ :=
      (C8_find_dependent_closure ctxSpill 5 "parent" (by decide)).2
        (TableDef.mk [.bare "id", .bare "a"] (some ["id"])
          [("child", TableDef.mk [.bare "b"] (some ["b"]) [] none []
            (some { action := "INSERT",
                    target := some { schema := some "aud",
                                     table := none } }))]
          none [] none)
        (List.mem_cons_self _ _) (by decide) (by decide) (by decide)
        (by decide)
    exact ⟨r, hr, by rw [hk]; decide⟩

end Nsaph
